import Mathlib

/-!
Verification of the archive versioning and lifecycle engine of the
`archiven-api` repository against its natural-language specification.

The repository stores archives as GridFS files whose `files` documents are
dynamic bson maps.  We model bson values shallowly (`BVal`), a stored files
document as an association list (`BDoc`), and the whole metadata store as a
list of such documents.  Each repository/service function of the source is
translated into a pure Lean function over this state; `Option` is used for
Go panics (an unchecked type assertion that fails is `none`), `Except` for
Go `error` returns.  Timestamps (`time.Time` / `primitive.DateTime`) are
abstract integer instants; ObjectIDs are their 24-character hex strings.
-/

set_option autoImplicit false

namespace Archiven

/-- Shallow model of the bson values this repository stores in GridFS file
documents (`bson.M` / `bson.D` / `primitive.A` / `primitive.DateTime` /
`primitive.ObjectID`). `dt` is an abstract integer time instant. -/
inductive BVal where
  | str : String → BVal
  | i32 : Int → BVal
  | i64 : Int → BVal
  | dt : Int → BVal
  | bool : Bool → BVal
  | oid : String → BVal
  | arr : List BVal → BVal
  | doc : List (String × BVal) → BVal
  | null : BVal

/-- A bson document: an association list of fields (a GridFS `files` entry
or a nested metadata object). -/
abbrev BDoc := List (String × BVal)

/-- The GridFS files collection backing the metadata index. -/
abbrev Store := List BDoc

/-- First value bound to key `k` in document `d` (bson field lookup). -/
def getField (d : BDoc) (k : String) : Option BVal :=
  (d.find? (fun p => p.1 == k)).map (fun p => p.2)

/-- mongo `$set {k: v}`: replace the field if present, else append it. -/
def setField (d : BDoc) (k : String) (v : BVal) : BDoc :=
  if d.any (fun p => p.1 == k) then
    d.map (fun p => if p.1 == k then (k, v) else p)
  else
    d ++ [(k, v)]

/-- mongo `$unset {k}`: remove the field. -/
def unsetField (d : BDoc) (k : String) : BDoc :=
  d.filter (fun p => p.1 != k)

/-- The nested `metadata` object of a files document, when present. -/
def getMeta (d : BDoc) : Option BDoc :=
  match getField d "metadata" with
  | some (.doc m) => some m
  | _ => none

/-- Field `k` of the nested `metadata` object. -/
def getMetaField (d : BDoc) (k : String) : Option BVal :=
  (getMeta d).bind (fun m => getField m k)

/-- mongo `$set {metadata.k: v}`: set a field inside the metadata object,
creating the object when absent. -/
def setMetaField (d : BDoc) (k : String) (v : BVal) : BDoc :=
  match getField d "metadata" with
  | some (.doc m) => setField d "metadata" (.doc (setField m k v))
  | _ => setField d "metadata" (.doc [(k, v)])

/-- mongo filter `{k: null}` on a top-level field: matches documents where
the field is missing or bound to null. -/
def topNull (d : BDoc) (k : String) : Bool :=
  match getField d k with
  | none => true
  | some .null => true
  | some _ => false

/-- mongo filter `{k: {$gt: t}}` on a date field: the field must be present
as a date strictly greater than `t` (missing fields never match). -/
def topDtGt (d : BDoc) (k : String) (t : Int) : Bool :=
  match getField d k with
  | some (.dt v) => t < v
  | _ => false

/-- mongo filter `{metadata.k: null}` (also the union with
`{metadata.k: {$exists: false}}` used throughout the source): matches when
the path is missing or bound to null. -/
def metaNull (d : BDoc) (k : String) : Bool :=
  match getMeta d with
  | none => true
  | some m =>
    match getField m k with
    | none => true
    | some .null => true
    | some _ => false

/-- Does the document's `_id` equal the given ObjectID (hex)? -/
def idIs (id : String) (d : BDoc) : Bool :=
  match getField d "_id" with
  | some (.oid s) => s == id
  | _ => false

/-- mongo filter `{filename: nm}`: string equality on the filename field. -/
def fnameIs (nm : String) (d : BDoc) : Bool :=
  match getField d "filename" with
  | some (.str s) => s == nm
  | _ => false

/-- `primitive.ObjectIDFromHex` succeeds exactly on 24-character hex
strings. -/
def validHex (s : String) : Bool :=
  s.length == 24 && s.toList.all (fun c => c.isDigit || "abcdef".toList.contains c || "ABCDEF".toList.contains c)

/-- `UpdateOne`: apply `f` to the first document matching `p` (mongo
updates at most one document and reports no error when none matches). -/
def updateFirst (p : BDoc → Bool) (f : BDoc → BDoc) : Store → Store
  | [] => []
  | d :: ds => if p d then f d :: ds else d :: updateFirst p f ds

/-! ## Domain model (`internal/archive/domain`) -/

/-- A Go `interface{}` value held in a `domain.Change`: the source stores
strings and ints there. -/
inductive GoVal where
  | s : String → GoVal
  | i : Int → GoVal
deriving DecidableEq, Repr

/-- `domain.Change`: one field-level difference recorded in the history. -/
structure Change where
  field : String
  oldValue : GoVal
  newValue : GoVal
deriving DecidableEq, Repr

/-- `domain.ChangeLog`: one history entry of an archive. -/
structure ChangeLog where
  timestamp : Int
  action : String
  userID : String
  changes : List Change
deriving DecidableEq, Repr

/-- `domain.Archive` (the versioned variant).  `SizeMB` is a display string
computed with floating point by `FormatSize` and is omitted (no claim
mentions it). -/
structure Archive where
  id : String
  name : String
  size : Int
  category : String
  type : String
  tags : List String
  description : String
  ownerID : String
  version : Int
  deletedAt : Option Int
  expiresAt : Option Int
  updatedAt : Int
  createdAt : Int
  isTemp : Bool
  changeLogs : List ChangeLog
deriving DecidableEq, Repr

/-- The Go zero value of `domain.Archive`. -/
def Archive.empty : Archive :=
  { id := "", name := "", size := 0, category := "", type := "", tags := []
  , description := "", ownerID := "", version := 0, deletedAt := none
  , expiresAt := none, updatedAt := 0, createdAt := 0, isTemp := false
  , changeLogs := [] }

instance : Inhabited ChangeLog := ⟨{ timestamp := 0, action := "", userID := "", changes := [] }⟩

/-- `domain.FileContent` (the versioned variant; the unused mime/extension
fields are omitted).  Content bytes are abstract naturals. -/
structure FileContent where
  name : String
  content : List Nat
  size : Int
deriving DecidableEq, Repr

/-- `domain.ArchiveMetadata`: the per-upload metadata supplied by callers. -/
structure ArchiveMetadata where
  category : String
  type : String
  tags : List String
  description : String
  ownerID : String
deriving DecidableEq, Repr

/-- `domain.DeleteType`. -/
inductive DeleteType where
  | soft
  | hard
  | temp
deriving DecidableEq, Repr

/-- The domain error values returned by the repository and service layers
(`fmt.Errorf`-wrapped infrastructure errors are collapsed into `other`). -/
inductive RepoErr where
  | notFound
  | alreadyExpired
  | notDeleted
  | deleteNotAllowed
  | invalidObjectID
  | other : String → RepoErr
deriving DecidableEq, Repr

/-! ## Type assertions (`x.(T)` in Go; failure is a panic, modelled `none`) -/

def asStr : Option BVal → Option String
  | some (.str s) => some s
  | _ => none

def asOid : Option BVal → Option String
  | some (.oid s) => some s
  | _ => none

def asI64 : Option BVal → Option Int
  | some (.i64 n) => some n
  | _ => none

def asI32 : Option BVal → Option Int
  | some (.i32 n) => some n
  | _ => none

def asDt : Option BVal → Option Int
  | some (.dt t) => some t
  | _ => none

def asBool : Option BVal → Option Bool
  | some (.bool b) => some b
  | _ => none

def asDoc : Option BVal → Option BDoc
  | some (.doc m) => some m
  | _ => none

/-! ## `mapToArchive` (service.go:632-683, the versioned variant)

Maps a raw files document to a `domain.Archive`.  When a metadata object is
present, the fields `category`, `type`, `description`, `owner_id`,
`version` (as `int32`), `created_at`, `updated_at` and `is_temp` are read
with unchecked type assertions; `tags` and `change_logs` use ok-guarded
assertions, but each tag element and each change-log entry field is again
asserted uncheckedly.  Read-back change-log entries keep only timestamp,
action and user id: the `changes` list is not copied. -/

/-- Effectful map over a Go slice: the source loops append one converted
element at a time, and a failing type assertion inside the loop panics the
whole call (`none`). -/
def optionMapM {α β : Type} (f : α → Option β) : List α → Option (List β)
  | [] => some []
  | x :: xs => do
    let y ← f x
    let ys ← optionMapM f xs
    pure (y :: ys)

/-- One change-log entry as `mapToArchive` reads it back: a non-document
array element leaves the zero-value entry in place. -/
def readLogEntry (cl : BVal) : Option ChangeLog :=
  match cl with
  | .doc logMap => do
    let ts ← asDt (getField logMap "timestamp")
    let act ← asStr (getField logMap "action")
    let uid ← asStr (getField logMap "user_id")
    pure { timestamp := ts, action := act, userID := uid, changes := [] }
  | _ => some default

/-- The ok-guarded `tags` read (each element an unchecked string
assertion). -/
def readTags (metadata : BDoc) : Option (List String) :=
  match getField metadata "tags" with
  | some (.arr ts) => optionMapM (fun t => asStr (some t)) ts
  | _ => some []

/-- The ok-guarded `change_logs` read. -/
def readLogs (metadata : BDoc) : Option (List ChangeLog) :=
  match getField metadata "change_logs" with
  | some (.arr cls) => optionMapM readLogEntry cls
  | _ => some []

def mapToArchive (file : BDoc) : Option Archive :=
  match getField file "metadata" with
  | some (.doc metadata) => do
    let id ← asOid (getField file "_id")
    let nm ← asStr (getField file "filename")
    let len ← asI64 (getField file "length")
    let category ← asStr (getField metadata "category")
    let ty ← asStr (getField metadata "type")
    let descr ← asStr (getField metadata "description")
    let ownerID ← asStr (getField metadata "owner_id")
    let version ← asI32 (getField metadata "version")
    let createdAt ← asDt (getField metadata "created_at")
    let updatedAt ← asDt (getField metadata "updated_at")
    let isTemp ← asBool (getField metadata "is_temp")
    let tags ← readTags metadata
    let changeLogs ← readLogs metadata
    pure { id := id, name := nm, size := len, category := category
         , type := ty, tags := tags, description := descr, ownerID := ownerID
         , version := version, deletedAt := none, expiresAt := none
         , updatedAt := updatedAt, createdAt := createdAt, isTemp := isTemp
         , changeLogs := changeLogs }
  | _ => do
    -- No metadata object: only the basic fields, still via unchecked
    -- assertions on `_id`, `filename`, `length` and `uploadDate`.
    let id ← asOid (getField file "_id")
    let nm ← asStr (getField file "filename")
    let len ← asI64 (getField file "length")
    let up ← asDt (getField file "uploadDate")
    pure { Archive.empty with id := id, name := nm, size := len, createdAt := up }

/-! ## `FindExistingArchive` (service.go:686-717)

Head resolution for an upload.  The mongo filter matches on the filename
ONLY (the incoming archive's category, type, tags and owner are ignored),
excluding documents whose `metadata.deleted_at` is set; among the matches
the one with the greatest version wins (first match kept on ties). -/

/-- The resolution filter: `{filename: a.Name}` joined with the
missing-or-null disjunction on `metadata.deleted_at`. -/
def matchesExisting (nm : String) (d : BDoc) : Bool :=
  fnameIs nm d && metaNull d "deleted_at"

/-- One iteration of `FindExistingArchive`'s cursor loop: decode the
document and keep the strictly-greater version (first match wins ties). -/
def resolveStep (latest : Option Archive) (d : BDoc) : Option (Option Archive) := do
  let current ← mapToArchive d
  match latest with
  | none => pure (some current)
  | some l => if current.version > l.version then pure (some current) else pure (some l)

/-- `FindExistingArchive`.  Outer `Option` is panic propagation from
`mapToArchive`; the inner `Option` is the `*domain.Archive | nil` result. -/
def findExistingArchive (store : Store) (a : Archive) : Option (Option Archive) :=
  (store.filter (matchesExisting a.name)).foldlM resolveStep none

/-! ## `SaveWithVersioning` (service.go:719-826)

Persists an upload.  When a head exists the incoming archive inherits the
head's id and creation time, bumps the version, appends one `update`
change-log entry to the head's (read-back) log, and then DELETES THE OLD
GRIDFS FILE BEFORE the new content is written.  The stored files document
receives a fresh GridFS id (`OpenUploadStream` assigns its own ObjectID;
the code never copies `archive.ID` into the stored document). -/

/-- `fmt.Sprintf("%v", tags)` for a Go string slice. -/
def fmtTags (ts : List String) : String :=
  "[" ++ String.intercalate " " ts ++ "]"

def goValToB : GoVal → BVal
  | .s s => .str s
  | .i n => .i32 n

/-- bson marshalling of `domain.Change`. -/
def changeToB (c : Change) : BVal :=
  .doc [("field", .str c.field), ("old_value", goValToB c.oldValue),
        ("new_value", goValToB c.newValue)]

/-- bson marshalling of `domain.ChangeLog`. -/
def changeLogToB (cl : ChangeLog) : BVal :=
  .doc [("timestamp", .dt cl.timestamp), ("action", .str cl.action),
        ("user_id", .str cl.userID), ("changes", .arr (cl.changes.map changeToB))]

/-- The metadata document `SaveWithVersioning` attaches to the upload
(service.go:793-805); `updated_at` is the call's `now`, not the struct
field. -/
def mkMetadataDoc (a : Archive) (now : Int) : BDoc :=
  [ ("filename", .str a.name), ("category", .str a.category)
  , ("type", .str a.type), ("tags", .arr (a.tags.map BVal.str))
  , ("description", .str a.description), ("owner_id", .str a.ownerID)
  , ("version", .i32 a.version), ("created_at", .dt a.createdAt)
  , ("updated_at", .dt now), ("is_temp", .bool a.isTemp)
  , ("change_logs", .arr (a.changeLogs.map changeLogToB)) ]

/-- The files document created by a successful `OpenUploadStream`/`Write`:
GridFS assigns the fresh `uploadOid` as `_id` and records the written
length; `uploadDate` is the write instant. -/
def mkStoredDoc (a : Archive) (contentLen : Int) (now : Int) (uploadOid : String) : BDoc :=
  [ ("_id", .oid uploadOid), ("filename", .str a.name)
  , ("length", .i64 contentLen), ("uploadDate", .dt now)
  , ("metadata", .doc (mkMetadataDoc a now)) ]

/-- Result of `SaveWithVersioning`: the store after the call together with
the Go return value. -/
structure SaveOutcome where
  store : Store
  result : Except String Archive

/-- The `update` change-log entry computed for a version bump
(service.go:734-769): always the version change, then category,
description and tags when they differ.  `reflect.DeepEqual` on the tag
slices is modelled as list equality. -/
def bumpChanges (e a : Archive) : List Change :=
  let base : List Change := [⟨"version", .i e.version, .i (e.version + 1)⟩]
  let c1 := if e.category != a.category then
    base ++ [⟨"category", .s e.category, .s a.category⟩] else base
  let c2 := if e.description != a.description then
    c1 ++ [⟨"description", .s e.description, .s a.description⟩] else c1
  if e.tags != a.tags then
    c2 ++ [⟨"tags", .s (fmtTags e.tags), .s (fmtTags a.tags)⟩] else c2

/-- The in-memory archive after the version-bump branch
(service.go:726-771): the head's id and creation time are inherited, the
version is bumped, and one `update` entry is appended to the head's
(read-back) change log. -/
def bumpedArchive (e a0 : Archive) (now : Int) : Archive :=
  let a2 := { a0 with
    updatedAt := now, id := e.id, version := e.version + 1, createdAt := e.createdAt }
  { a2 with changeLogs := e.changeLogs ++ [⟨now, "update", a2.ownerID, bumpChanges e a2⟩] }

/-- The in-memory archive after the create-new branch
(service.go:777-790): fresh id, version 1, a single `upload` entry. -/
def freshArchive (a0 : Archive) (now : Int) (freshOid : String) : Archive :=
  { a0 with
    updatedAt := now, id := freshOid, version := 1, createdAt := now,
    changeLogs := [⟨now, "upload", a0.ownerID, []⟩] }

/-- `SaveWithVersioning` after head resolution (everything from
service.go:725 on).  `freshOid` models `primitive.NewObjectID()` and
`uploadOid` the id GridFS assigns to the uploaded file; `writeOk = false`
models a failing `uploadStream.Write`, in which case no files document is
created but everything already done to the store stands. -/
def saveGivenExisting (store : Store) (existing : Option Archive) (a0 : Archive)
    (content : List Nat) (now : Int) (freshOid uploadOid : String)
    (writeOk : Bool) : SaveOutcome :=
  match existing with
  | some e =>
    let a3 := bumpedArchive e a0 now
    -- `r.bucket.Delete(existing.ID)` BEFORE the new write; GridFS reports
    -- an error when no file has that id.
    if store.any (idIs e.id) then
      let store1 := store.filter (fun d => !idIs e.id d)
      if writeOk then
        { store := store1 ++ [mkStoredDoc a3 content.length now uploadOid]
        , result := .ok { a3 with size := content.length } }
      else
        { store := store1, result := .error "failed to write file content" }
    else
      { store := store, result := .error "failed to delete old version" }
  | none =>
    let a3 := freshArchive a0 now freshOid
    if writeOk then
      { store := store ++ [mkStoredDoc a3 content.length now uploadOid]
      , result := .ok { a3 with size := content.length } }
    else
      { store := store, result := .error "failed to write file content" }

/-- `SaveWithVersioning` proper: resolve the head, then persist.  `none`
is a panic escaping from `mapToArchive` during resolution. -/
def saveWithVersioning (store : Store) (a : Archive) (content : List Nat)
    (now : Int) (freshOid uploadOid : String) (writeOk : Bool) :
    Option SaveOutcome := do
  let existing ← findExistingArchive store a
  pure (saveGivenExisting store existing a content now freshOid uploadOid writeOk)

/-! ## `UploadArchive` (service.go:70-101, the versioned service)

Resolves the head itself (passing name, category, type, tags and owner,
of which resolution uses only the name), preseeds id/version/createdAt on
the archive it builds, and delegates to `SaveWithVersioning` — which
re-resolves and overwrites those fields. -/

/-- The `domain.Archive` the service hands to `FindExistingArchive`
(service.go:72-78). -/
def uploadProbe (file : FileContent) (md : ArchiveMetadata) : Archive :=
  { Archive.empty with
    name := file.name, category := md.category,
    type := md.type, tags := md.tags, ownerID := md.ownerID }

/-- The `domain.Archive` the service builds for the save
(service.go:83-91). -/
def uploadBase (file : FileContent) (md : ArchiveMetadata) : Archive :=
  { Archive.empty with
    name := file.name, size := file.size,
    category := md.category, type := md.type, tags := md.tags,
    description := md.description, ownerID := md.ownerID }

/-- The preseeding of id/version/createdAt done by the service
(service.go:94-98) — overwritten again inside `SaveWithVersioning`. -/
def seededArchive (file : FileContent) (md : ArchiveMetadata) : Option Archive → Archive
  | some e =>
    { uploadBase file md with id := e.id, version := e.version + 1, createdAt := e.createdAt }
  | none => uploadBase file md

def uploadArchive (store : Store) (file : FileContent) (md : ArchiveMetadata)
    (now : Int) (freshOid uploadOid : String) (writeOk : Bool) :
    Option SaveOutcome := do
  let existing ← findExistingArchive store (uploadProbe file md)
  saveWithVersioning store (seededArchive file md existing) file.content now freshOid uploadOid writeOk

/-! ## Legacy `Save` (service.go:243-273)

The plain upload path: stores the file with a metadata object holding ONLY
`created_at` and `is_temp`. -/

/-- The files document created by the legacy `Save`: a metadata object
holding only `created_at` and `is_temp`. -/
def mkLegacyDoc (file : FileContent) (now : Int) (uploadOid : String) : BDoc :=
  [ ("_id", .oid uploadOid), ("filename", .str file.name)
  , ("length", .i64 file.content.length), ("uploadDate", .dt now)
  , ("metadata", .doc [("created_at", .dt now), ("is_temp", .bool false)]) ]

def save (store : Store) (file : FileContent) (now : Int) (uploadOid : String) : Store :=
  store ++ [mkLegacyDoc file now uploadOid]

/-! ## `FindByID` (service.go:275-356, the versioned variant)

Point read.  The mongo filter admits the document when its top-level
`deleted_at` is null/missing OR its `expires_at` lies in the future; the
Go code then re-checks: a set `deleted_at` yields NotFound and a past
`expires_at` yields the expired error.  `uploadDate` is read through an
unchecked assertion; `time.Unix(ms/1000, 0)` truncates to seconds. -/

def findByIDFilter (id : String) (now : Int) (d : BDoc) : Bool :=
  idIs id d && (topNull d "deleted_at" || topDtGt d "expires_at" now)

/-- Optional date read with an ok-guarded assertion
(`results[k].(primitive.DateTime)`). -/
def optDt (d : BDoc) (k : String) : Option Int :=
  match getField d k with
  | some (.dt t) => some t
  | _ => none

/-- Optional bool read tolerating a missing or non-bool field. -/
def optBoolD (d : BDoc) (k : String) : Bool :=
  match getField d k with
  | some (.bool b) => b
  | _ => false

/-- The archive `FindByID` builds from the found document
(service.go:337-345): basic fields only, with `time.Unix(ms/1000, 0)`
truncating the upload date to seconds. -/
def foundArchive (id nm : String) (len up : Int) (deletedAt expiresAt : Option Int)
    (isTemp : Bool) : Archive :=
  { Archive.empty with
    id := id, name := nm, size := len, createdAt := up / 1000,
    deletedAt := deletedAt, expiresAt := expiresAt, isTemp := isTemp }

/-- `DownloadToStream`: blob bytes are not modelled per document, so the
download yields an abstract empty byte list. -/
def docContent (_ : BDoc) : List Nat := []

def findByID (store : Store) (id : String) (now : Int) :
    Option (Except RepoErr (Archive × List Nat)) :=
  if !validHex id then some (.error .invalidObjectID) else
  match (store.filter (findByIDFilter id now)).head? with
  | none => some (.error .notFound)
  | some doc => do
    let up ← asDt (getField doc "uploadDate")
    if (optDt doc "deleted_at").isSome then pure (.error .notFound) else
    match optDt doc "expires_at" with
    | some e =>
      if e < now then pure (.error .alreadyExpired) else do
        let nm ← asStr (getField doc "filename")
        let len ← asI64 (getField doc "length")
        pure (.ok (foundArchive id nm len up (optDt doc "deleted_at") (some e)
          (optBoolD doc "is_temp"), docContent doc))
    | none => do
        let nm ← asStr (getField doc "filename")
        let len ← asI64 (getField doc "length")
        pure (.ok (foundArchive id nm len up (optDt doc "deleted_at") none
          (optBoolD doc "is_temp"), docContent doc))

/-! ## `FindAll` (service.go:358-394, the versioned variant)

Default listing: excludes documents with a top-level `deleted_at` and
documents whose `expires_at` has passed; paginates.  The query sorts by a
top-level `created_at` field that no write path of this repository ever
sets, so the sort is a no-op and is not modelled. -/

def findAllFilter (now : Int) (d : BDoc) : Bool :=
  topNull d "deleted_at" && (topNull d "expires_at" || topDtGt d "expires_at" now)

def findAll (store : Store) (page limit : Nat) (now : Int) :
    Option (List Archive × Int) := do
  let matched := store.filter (findAllFilter now)
  let total : Int := matched.length
  let pageDocs := (matched.drop ((page - 1) * limit)).take limit
  let archives ← optionMapM mapToArchive pageDocs
  pure (archives, total)

/-! ## `FindByIDs` (service.go:423-488, the versioned variant)

Multi-get.  Every requested id is hex-parsed up front (one bad id aborts
the whole call).  The filter keeps documents whose `_id` is among the
requested ids and whose `metadata.deleted_at` is null or missing — there
is NO expiry condition.  Results are keyed by id and then emitted in the
requested order, silently skipping ids with no match; `ErrArchiveNotFound`
is returned when nothing matched.  (The `uploadDate` sort of the source
only permutes rows feeding the id-keyed map, so it is observable only if
two stored files shared an `_id`; the embedding keys by first match.) -/

def findByIDsFilter (ids : List String) (d : BDoc) : Bool :=
  (match getField d "_id" with
   | some (.oid s) => ids.contains s
   | _ => false)
  && metaNull d "deleted_at"

def findByIDs (store : Store) (ids : List String) :
    Option (Except RepoErr (List Archive)) :=
  if !(ids.all validHex) then some (.error .invalidObjectID)
  else if (store.filter (findByIDsFilter ids)).isEmpty then some (.error .notFound)
  else
    match optionMapM mapToArchive (store.filter (findByIDsFilter ids)) with
    | none => none
    | some mapped =>
      let archives := ids.filterMap (fun id => mapped.find? (fun a => a.id == id))
      if archives.isEmpty then some (.error .notFound) else some (.ok archives)

/-! ## `GetByCategory` / `GetByTags` (service.go:893-977)

Filtered listings over the metadata object.  Both exclude only on
`metadata.deleted_at` (null or missing) — like `FindByIDs` they never look
at `expires_at`.  `GetByTags` uses `$all` (every queried tag must occur;
mongo's `$all` with an empty list matches nothing).  Both sort by
`metadata.updated_at` descending; the embedding uses a stable insertion
sort (mongo's order on ties is unspecified, and no claim depends on it). -/

def categoryMatches (category : String) (d : BDoc) : Bool :=
  (match getMetaField d "category" with
   | some (.str s) => s == category
   | _ => false)
  && metaNull d "deleted_at"

def tagsMatch (tags : List String) (d : BDoc) : Bool :=
  (if tags.isEmpty then false else
    match getMetaField d "tags" with
    | some (.arr ts) =>
      tags.all (fun t => ts.any (fun v => match v with | .str s => s == t | _ => false))
    | _ => false)
  && metaNull d "deleted_at"

/-- Sort key: `metadata.updated_at`; missing dates sort last in the
descending order. -/
def updatedKey (d : BDoc) : Option Int := asDt (getMetaField d "updated_at")

def insertByUpdatedDesc (d : BDoc) : Store → Store
  | [] => [d]
  | e :: es =>
    match updatedKey d, updatedKey e with
    | some kd, some ke => if ke < kd then d :: e :: es else e :: insertByUpdatedDesc d es
    | some _, none => d :: e :: es
    | none, _ => e :: insertByUpdatedDesc d es

def sortByUpdatedDesc (ds : Store) : Store :=
  ds.foldr insertByUpdatedDesc []

def getByCategory (store : Store) (category : String) (page limit : Nat) :
    Option (List Archive × Int) := do
  let matched := store.filter (categoryMatches category)
  let total : Int := matched.length
  let pageDocs := ((sortByUpdatedDesc matched).drop ((page - 1) * limit)).take limit
  let archives ← optionMapM mapToArchive pageDocs
  pure (archives, total)

def getByTags (store : Store) (tags : List String) (page limit : Nat) :
    Option (List Archive × Int) := do
  let matched := store.filter (tagsMatch tags)
  let total : Int := matched.length
  let pageDocs := ((sortByUpdatedDesc matched).drop ((page - 1) * limit)).take limit
  let archives ← optionMapM mapToArchive pageDocs
  pure (archives, total)

/-- `GetByCategory` of the service (service.go:149-154): rejects the empty
category before touching the repository. -/
def serviceGetByCategory (store : Store) (category : String) (page limit : Nat) :
    Option (Except RepoErr (List Archive × Int)) :=
  if category == "" then some (.error (.other "invalid category"))
  else (getByCategory store category page limit).map .ok

/-- `GetByTags` of the service (service.go:156-161): rejects an empty tag
list before touching the repository. -/
def serviceGetByTags (store : Store) (tags : List String) (page limit : Nat) :
    Option (Except RepoErr (List Archive × Int)) :=
  if tags.isEmpty then some (.error (.other "tags are required"))
  else (getByTags store tags page limit).map .ok

/-! ## Deletion (repository.go:261-304) and `DeleteArchive`
(service.go:115-125)

`softDelete` sets the top-level `deleted_at` unconditionally — it appends
NOTHING to the change log and succeeds whether or not the document was
already soft-deleted.  `tempDelete` sets `is_temp` and a 24h expiry.
`hardDelete` removes the file (GridFS errors when the id does not exist).
`Exists` counts documents by `_id` only, so soft- and temp-deleted records
still count. -/

/-- 24 hours, in the same abstract milliseconds as all `dt` instants. -/
def tempTTL : Int := 24 * 60 * 60 * 1000

def softDelete (store : Store) (id : String) (now : Int) : Store :=
  updateFirst (idIs id) (fun d => setField d "deleted_at" (.dt now)) store

def tempDelete (store : Store) (id : String) (now : Int) : Store :=
  updateFirst (idIs id)
    (fun d => setField (setField d "is_temp" (.bool true)) "expires_at" (.dt (now + tempTTL)))
    store

def hardDelete (store : Store) (id : String) : Store × Except RepoErr Unit :=
  if store.any (idIs id) then
    (store.filter (fun d => !idIs id d), .ok ())
  else
    (store, .error .notFound)

/-- `Delete` (repository.go:261-277): hex-validate, dispatch on the delete
type.  (Go's `DeleteType` is an `int` whose out-of-range values map to
`ErrDeleteNotAllowed`; the Lean enumeration has no such values.) -/
def repoDelete (store : Store) (id : String) (t : DeleteType) (now : Int) :
    Store × Except RepoErr Unit :=
  if !validHex id then (store, .error .invalidObjectID) else
  match t with
  | .soft => (softDelete store id now, .ok ())
  | .hard => hardDelete store id
  | .temp => (tempDelete store id now, .ok ())

/-- `Exists` (repository.go:332-343): `CountDocuments {_id}` — lifecycle
state is ignored. -/
def archiveExists (store : Store) (id : String) : Except RepoErr Bool :=
  if !validHex id then .error .invalidObjectID
  else .ok (store.any (idIs id))

/-- `DeleteArchive` (service.go:115-125): existence check, then delegate. -/
def deleteArchive (store : Store) (id : String) (t : DeleteType) (now : Int) :
    Store × Except RepoErr Unit :=
  match archiveExists store id with
  | .error e => (store, .error e)
  | .ok false => (store, .error .notFound)
  | .ok true => repoDelete store id t now

/-- `DeleteExpiredTempFiles` (repository.go:345-354): `DeleteMany` of all
documents with `is_temp = true` whose `expires_at` has passed. -/
def deleteExpiredTempFiles (store : Store) (now : Int) : Store :=
  store.filter (fun d =>
    !(optBoolD d "is_temp" && (match optDt d "expires_at" with
                               | some e => e < now
                               | none => false)))

/-! ## `RestoreArchive` (service.go:535-606, the versioned variant)

Restore requires a document whose top-level `deleted_at` exists and is
non-null; a missing document and a live document BOTH surface as
`ErrNotDeleted` (`mongo.ErrNoDocuments` is translated to it).  The update
appends a `restore` entry (status: deleted → active) to the read-back log
— whose entries lose their `changes` on the way, like `mapToArchive` —
sets `metadata.updated_at`, and `$unset`s ONLY `deleted_at`: `expires_at`
and `is_temp` are left in place. -/

/-- The restore-path filter:
`{_id, deleted_at: {$exists: true, $ne: null}}`. -/
def restoreFilter (id : String) (d : BDoc) : Bool :=
  idIs id d && (match getField d "deleted_at" with
                | none => false
                | some .null => false
                | some _ => true)

/-- Read-back of `metadata.change_logs` in `RestoreArchive`
(service.go:570-582), one raw entry at a time: doc entries are copied
minus their `changes` (timestamp/action/user_id are unchecked
assertions), non-doc entries are skipped. -/
def collectLogs : List BVal → Option (List ChangeLog)
  | [] => some []
  | .doc lm :: rest => do
    let ts ← asDt (getField lm "timestamp")
    let act ← asStr (getField lm "action")
    let uid ← asStr (getField lm "user_id")
    let tail ← collectLogs rest
    pure (⟨ts, act, uid, []⟩ :: tail)
  | _ :: rest => collectLogs rest

def readLogsSkipping (v : Option BVal) : Option (List ChangeLog) :=
  match v with
  | some (.arr logs) => collectLogs logs
  | _ => some []

/-- The history entry `RestoreArchive` appends. -/
def restoreEntry (owner : String) (now : Int) : ChangeLog :=
  ⟨now, "restore", owner, [⟨"status", .s "deleted", .s "active"⟩]⟩

/-- The document update of `RestoreArchive` (service.go:585-600): set the
new log and `metadata.updated_at`, unset only the top-level
`deleted_at`. -/
def restoreUpdate (logs : List ChangeLog) (now : Int) (d : BDoc) : BDoc :=
  unsetField
    (setMetaField (setMetaField d "change_logs" (.arr (logs.map changeLogToB)))
      "updated_at" (.dt now))
    "deleted_at"

def restoreArchive (store : Store) (id : String) (now : Int) :
    Option (Store × Except RepoErr Unit) :=
  if !validHex id then some (store, .error .invalidObjectID) else
  match store.find? (restoreFilter id) with
  | none => some (store, .error .notDeleted)
  | some doc => do
    let meta ← asDoc (getField doc "metadata")
    let owner ← asStr (getField meta "owner_id")
    let oldLogs ← readLogsSkipping (getField meta "change_logs")
    let logs := oldLogs ++ [restoreEntry owner now]
    let store1 := updateFirst (idIs id) (restoreUpdate logs now) store
    pure (store1, .ok ())

/-- `Restore` (repository.go:306-330, the plain variant):
`FindOneAndUpdate {_id}` that `$unset`s `deleted_at`, `expires_at` and
`is_temp` with no state check and no history entry; missing ids yield
`ErrArchiveNotFound`. -/
def repoRestore (store : Store) (id : String) : Store × Except RepoErr Unit :=
  if !validHex id then (store, .error .invalidObjectID) else
  if store.any (idIs id) then
    (updateFirst (idIs id)
      (fun d => unsetField (unsetField (unsetField d "deleted_at") "expires_at") "is_temp")
      store, .ok ())
  else
    (store, .error .notFound)

/-! ## Basic lemmas about the document model -/

theorem getField_nil (k : String) : getField [] k = none := rfl

theorem getField_cons (p : String × BVal) (ds : BDoc) (k : String) :
    getField (p :: ds) k = if p.1 == k then some p.2 else getField ds k := by
  by_cases h : p.1 == k
  · simp [getField, List.find?_cons_of_pos, h]
  · simp [getField, List.find?_cons_of_neg, h]

theorem setField_cons_ne (p : String × BVal) (ds : BDoc) (k : String) (v : BVal)
    (hp : (p.1 == k) = false) : setField (p :: ds) k v = p :: setField ds k v := by
  unfold setField
  simp only [List.any_cons, hp, Bool.false_or]
  by_cases h : ds.any (fun q => q.1 == k)
  · simp only [h, if_true, List.map_cons, hp, Bool.false_eq_true, if_false]
  · simp only [h, Bool.false_eq_true, if_false, List.cons_append]

theorem setField_cons_eq (p : String × BVal) (ds : BDoc) (k : String) (v : BVal)
    (hp : (p.1 == k) = true) :
    setField (p :: ds) k v = (k, v) :: ds.map (fun q => if q.1 == k then (k, v) else q) := by
  unfold setField
  simp [List.any_cons, hp]
  intro hne
  exact absurd (beq_iff_eq.mp hp) hne

theorem getField_map_setFn (ds : BDoc) (k k' : String) (v : BVal) (h : (k == k') = false) :
    getField (ds.map (fun q => if q.1 == k then (k, v) else q)) k' = getField ds k' := by
  induction ds with
  | nil => rfl
  | cons q es ih =>
    by_cases hq : q.1 == k
    · have hqk : q.1 = k := beq_iff_eq.mp hq
      rw [List.map_cons, if_pos hq, getField_cons, getField_cons]
      simp only [hqk, h, Bool.false_eq_true, if_false]
      exact ih
    · rw [List.map_cons, if_neg (by simp [hq]), getField_cons, getField_cons]
      by_cases hq' : q.1 == k'
      · simp [hq']
      · simp only [hq', Bool.false_eq_true, if_false]
        exact ih

theorem getField_setField (d : BDoc) (k : String) (v : BVal) :
    getField (setField d k v) k = some v := by
  induction d with
  | nil => simp [setField, getField]
  | cons p ds ih =>
    by_cases hp : p.1 == k
    · rw [setField_cons_eq p ds k v hp, getField_cons]
      simp
    · rw [setField_cons_ne p ds k v (by simpa using hp), getField_cons]
      simp only [hp, Bool.false_eq_true, if_false]
      exact ih

theorem getField_setField_ne (d : BDoc) (k k' : String) (v : BVal) (h : k' ≠ k) :
    getField (setField d k v) k' = getField d k' := by
  have hk : (k == k') = false := by
    cases hkk : k == k'
    · rfl
    · exact absurd (beq_iff_eq.mp hkk).symm h
  induction d with
  | nil => simp [setField, getField, List.find?, hk]
  | cons p ds ih =>
    by_cases hp : p.1 == k
    · rw [setField_cons_eq p ds k v hp, getField_cons]
      have hpk : p.1 = k := beq_iff_eq.mp hp
      simp only [hk, Bool.false_eq_true, if_false]
      rw [getField_cons]
      simp only [hpk, hk, Bool.false_eq_true, if_false]
      exact getField_map_setFn ds k k' v hk
    · rw [setField_cons_ne p ds k v (by simpa using hp), getField_cons, getField_cons]
      by_cases hp' : p.1 == k'
      · simp [hp']
      · simp only [hp', Bool.false_eq_true, if_false]
        exact ih

theorem getField_unsetField (d : BDoc) (k : String) :
    getField (unsetField d k) k = none := by
  induction d with
  | nil => rfl
  | cons p ds ih =>
    unfold unsetField at ih ⊢
    by_cases hp : p.1 == k
    · simp only [List.filter_cons, bne, hp, Bool.not_true, if_false, Bool.false_eq_true]
      exact ih
    · simp only [List.filter_cons, bne, hp, Bool.not_false, if_true]
      rw [getField_cons]
      simp only [hp, if_false, Bool.false_eq_true]
      exact ih

theorem getField_unsetField_ne (d : BDoc) (k k' : String) (h : k' ≠ k) :
    getField (unsetField d k) k' = getField d k' := by
  induction d with
  | nil => rfl
  | cons p ds ih =>
    unfold unsetField at ih ⊢
    by_cases hp : p.1 == k
    · have hpk : p.1 = k := beq_iff_eq.mp hp
      have hp' : (p.1 == k') = false := by
        cases hpp : p.1 == k'
        · rfl
        · exact absurd (beq_iff_eq.mp hpp) (hpk ▸ fun he => h he.symm)
      simp only [List.filter_cons, bne, hp, Bool.not_true, if_false, Bool.false_eq_true]
      rw [getField_cons]
      simp only [hp', if_false, Bool.false_eq_true]
      exact ih
    · simp only [List.filter_cons, bne, hp, Bool.not_false, if_true]
      rw [getField_cons, getField_cons]
      by_cases hp' : p.1 == k'
      · simp [hp']
      · simp only [hp', if_false, Bool.false_eq_true]
        exact ih

/-! ## Round-trip lemmas for documents written by `SaveWithVersioning` -/

/-- A change-log entry with its field changes dropped — the shape in which
every read path of the source returns stored history entries. -/
def stripChanges (cl : ChangeLog) : ChangeLog := { cl with changes := [] }

/-- `mapToArchive`'s record built from the two loop results. -/
def readBackWith (a : Archive) (len now : Int) (o : String)
    (tags : List String) (logs : List ChangeLog) : Archive :=
  { a with
    id := o, size := len, updatedAt := now, deletedAt := none,
    expiresAt := none, tags := tags, changeLogs := logs }

/-- What `mapToArchive` recovers from the files document that
`SaveWithVersioning` stores for archive `a`: the GridFS id and written
length replace the in-memory ones, and every history entry loses its field
changes. -/
def readBack (a : Archive) (len now : Int) (o : String) : Archive :=
  readBackWith a len now o a.tags (a.changeLogs.map stripChanges)

theorem optionMapM_tags (ts : List String) :
    optionMapM (fun t => asStr (some t)) (ts.map BVal.str) = some ts := by
  induction ts with
  | nil => rfl
  | cons t ts ih =>
    have h : optionMapM (fun t => asStr (some t)) ((t :: ts).map BVal.str)
        = Bind.bind (optionMapM (fun t => asStr (some t)) (ts.map BVal.str))
            (fun ys => some (t :: ys)) := rfl
    rw [h, ih]
    rfl

theorem readLogEntry_marshal (cl : ChangeLog) :
    readLogEntry (changeLogToB cl) = some (stripChanges cl) := rfl

theorem optionMapM_logs (cls : List ChangeLog) :
    optionMapM readLogEntry (cls.map changeLogToB) = some (cls.map stripChanges) := by
  induction cls with
  | nil => rfl
  | cons cl cls ih =>
    have h : optionMapM readLogEntry ((cl :: cls).map changeLogToB)
        = Bind.bind (optionMapM readLogEntry (cls.map changeLogToB))
            (fun ys => some (stripChanges cl :: ys)) := rfl
    rw [h, ih]
    rfl

theorem mapToArchive_mkStoredDoc (a : Archive) (len now : Int) (o : String) :
    mapToArchive (mkStoredDoc a len now o) = some (readBack a len now o) := by
  have h : mapToArchive (mkStoredDoc a len now o)
      = Bind.bind (optionMapM (fun t => asStr (some t)) (a.tags.map BVal.str))
          (fun tags => Bind.bind (optionMapM readLogEntry (a.changeLogs.map changeLogToB))
            (fun logs => some (readBackWith a len now o tags logs))) := rfl
  rw [h, optionMapM_tags, optionMapM_logs]
  rfl

theorem collectLogs_marshal (cls : List ChangeLog) :
    collectLogs (cls.map changeLogToB) = some (cls.map stripChanges) := by
  induction cls with
  | nil => rfl
  | cons cl cls ih =>
    have h : collectLogs ((cl :: cls).map changeLogToB)
        = Bind.bind (collectLogs (cls.map changeLogToB))
            (fun tail => some (stripChanges cl :: tail)) := rfl
    rw [h, ih]
    rfl

/-! ## Inversion lemmas: what a successful `mapToArchive` says about the
document it decoded -/

theorem asOid_inv (o : Option BVal) (s : String) (h : asOid o = some s) :
    o = some (.oid s) := by
  match o with
  | some (.oid t) =>
    simp [asOid] at h
    rw [h]
  | none => simp [asOid] at h
  | some (.str t) => simp [asOid] at h
  | some (.i32 t) => simp [asOid] at h
  | some (.i64 t) => simp [asOid] at h
  | some (.dt t) => simp [asOid] at h
  | some (.bool t) => simp [asOid] at h
  | some (.arr t) => simp [asOid] at h
  | some (.doc t) => simp [asOid] at h
  | some .null => simp [asOid] at h

theorem readLogEntry_changes (cl : BVal) (e : ChangeLog) (h : readLogEntry cl = some e) :
    e.changes = [] := by
  match cl with
  | .doc lm =>
    unfold readLogEntry at h
    rcases Option.bind_eq_some.mp h with ⟨ts, hts, h2⟩
    rcases Option.bind_eq_some.mp h2 with ⟨act, hact, h3⟩
    rcases Option.bind_eq_some.mp h3 with ⟨uid, huid, h4⟩
    cases h4
    rfl
  | .str x => unfold readLogEntry at h; cases h; rfl
  | .i32 x => unfold readLogEntry at h; cases h; rfl
  | .i64 x => unfold readLogEntry at h; cases h; rfl
  | .dt x => unfold readLogEntry at h; cases h; rfl
  | .bool x => unfold readLogEntry at h; cases h; rfl
  | .oid x => unfold readLogEntry at h; cases h; rfl
  | .arr x => unfold readLogEntry at h; cases h; rfl
  | .null => unfold readLogEntry at h; cases h; rfl

theorem optionMapM_readLog_changes (cls : List BVal) (l : List ChangeLog)
    (h : optionMapM readLogEntry cls = some l) :
    ∀ e ∈ l, e.changes = [] := by
  induction cls generalizing l with
  | nil =>
    unfold optionMapM at h
    cases h
    intro e he
    cases he
  | cons c cs ih =>
    unfold optionMapM at h
    rcases Option.bind_eq_some.mp h with ⟨y, hy, h2⟩
    rcases Option.bind_eq_some.mp h2 with ⟨ys, hys, h3⟩
    cases h3
    intro e he
    rcases List.mem_cons.mp he with he | he
    · exact he ▸ readLogEntry_changes c y hy
    · exact ih ys hys e he

theorem readLogs_changes (m : BDoc) (l : List ChangeLog) (h : readLogs m = some l) :
    ∀ e ∈ l, e.changes = [] := by
  unfold readLogs at h
  split at h
  · exact optionMapM_readLog_changes _ _ h
  · cases h
    intro e he
    cases he

theorem mapToArchive_inv (d : BDoc) (a : Archive) (h : mapToArchive d = some a) :
    getField d "_id" = some (.oid a.id) ∧ ∀ e ∈ a.changeLogs, e.changes = [] := by
  unfold mapToArchive at h
  split at h
  · rcases Option.bind_eq_some.mp h with ⟨idv, hid, h⟩
    rcases Option.bind_eq_some.mp h with ⟨nm, hnm, h⟩
    rcases Option.bind_eq_some.mp h with ⟨len, hlen, h⟩
    rcases Option.bind_eq_some.mp h with ⟨cat, hcat, h⟩
    rcases Option.bind_eq_some.mp h with ⟨ty, hty, h⟩
    rcases Option.bind_eq_some.mp h with ⟨de, hde, h⟩
    rcases Option.bind_eq_some.mp h with ⟨ow, how, h⟩
    rcases Option.bind_eq_some.mp h with ⟨ver, hver, h⟩
    rcases Option.bind_eq_some.mp h with ⟨ca, hca, h⟩
    rcases Option.bind_eq_some.mp h with ⟨ua, hua, h⟩
    rcases Option.bind_eq_some.mp h with ⟨it, hit, h⟩
    rcases Option.bind_eq_some.mp h with ⟨tags, htags, h⟩
    rcases Option.bind_eq_some.mp h with ⟨logs, hlogs, h⟩
    cases h
    exact ⟨asOid_inv _ _ hid, readLogs_changes _ _ hlogs⟩
  · rcases Option.bind_eq_some.mp h with ⟨idv, hid, h⟩
    rcases Option.bind_eq_some.mp h with ⟨nm, hnm, h⟩
    rcases Option.bind_eq_some.mp h with ⟨len, hlen, h⟩
    rcases Option.bind_eq_some.mp h with ⟨up, hup, h⟩
    cases h
    refine ⟨asOid_inv _ _ hid, ?_⟩
    intro e he
    simp [Archive.empty] at he

/-! ## Provenance of a resolved head -/

theorem resolveStep_cases (acc : Option Archive) (d : BDoc) (acc' : Option Archive)
    (h : resolveStep acc d = some acc') :
    ∃ c, mapToArchive d = some c ∧ (acc' = some c ∨ acc' = acc) := by
  unfold resolveStep at h
  rcases Option.bind_eq_some.mp h with ⟨c, hc, h2⟩
  refine ⟨c, hc, ?_⟩
  match acc with
  | none =>
    cases h2
    left
    rfl
  | some l =>
    dsimp only at h2
    split at h2
    · cases h2
      left
      rfl
    · cases h2
      right
      rfl

theorem foldlM_resolve_from (l : List BDoc) (acc : Option Archive) (hd : Archive)
    (h : l.foldlM resolveStep acc = some (some hd)) :
    acc = some hd ∨ ∃ d ∈ l, mapToArchive d = some hd := by
  induction l generalizing acc with
  | nil =>
    left
    simp only [List.foldlM] at h
    cases h
    rfl
  | cons d ds ih =>
    simp only [List.foldlM] at h
    rcases Option.bind_eq_some.mp h with ⟨acc', hstep, hrest⟩
    rcases resolveStep_cases acc d acc' hstep with ⟨c, hc, hacc | hacc⟩
    · rcases ih acc' hrest with hl | ⟨d', hd', hm'⟩
      · right
        refine ⟨d, List.mem_cons_self d ds, ?_⟩
        rw [hacc] at hl
        cases hl
        exact hc
      · right
        exact ⟨d', List.mem_cons_of_mem d hd', hm'⟩
    · rcases ih acc' hrest with hl | ⟨d', hd', hm'⟩
      · left
        rw [← hacc, hl]
      · right
        exact ⟨d', List.mem_cons_of_mem d hd', hm'⟩

/-- A resolved head was decoded from a stored document. -/
theorem findExisting_from (store : Store) (a hd : Archive)
    (h : findExistingArchive store a = some (some hd)) :
    ∃ d ∈ store, mapToArchive d = some hd := by
  unfold findExistingArchive at h
  rcases foldlM_resolve_from _ none hd h with hl | ⟨d, hdmem, hm⟩
  · cases hl
  · exact ⟨d, (List.mem_filter.mp hdmem).1, hm⟩

/-- The files collection still holds a document with the resolved head's
id (so the `bucket.Delete(existing.ID)` in `SaveWithVersioning`
succeeds). -/
theorem findExisting_id_mem (store : Store) (a hd : Archive)
    (h : findExistingArchive store a = some (some hd)) :
    store.any (idIs hd.id) = true := by
  rcases findExisting_from store a hd h with ⟨d, hdmem, hm⟩
  have hid := (mapToArchive_inv d hd hm).1
  refine List.any_eq_true.mpr ⟨d, hdmem, ?_⟩
  simp [idIs, hid]

/-- Head resolution reads nothing but the upload's name: owner, category,
type and tags never influence which record is matched. -/
theorem findExisting_name_only (store : Store) (a b : Archive) (h : a.name = b.name) :
    findExistingArchive store a = findExistingArchive store b := by
  unfold findExistingArchive
  rw [h]

/-! ## Computation lemmas for the save path -/

theorem saveWithVersioning_resolved (store : Store) (a : Archive) (c : List Nat)
    (now : Int) (f g : String) (w : Bool) (ex : Option Archive)
    (h : findExistingArchive store a = some ex) :
    saveWithVersioning store a c now f g w
      = some (saveGivenExisting store ex a c now f g w) := by
  unfold saveWithVersioning
  rw [h]
  rfl

theorem uploadArchive_resolved (store : Store) (file : FileContent) (md : ArchiveMetadata)
    (now : Int) (f g : String) (w : Bool) (ex : Option Archive)
    (h : findExistingArchive store (uploadProbe file md) = some ex) :
    uploadArchive store file md now f g w
      = saveWithVersioning store (seededArchive file md ex) file.content now f g w := by
  unfold uploadArchive
  rw [h]
  rfl

theorem seededArchive_name (file : FileContent) (md : ArchiveMetadata) (ex : Option Archive) :
    (seededArchive file md ex).name = file.name := by
  cases ex <;> rfl

theorem saveGivenExisting_head (store : Store) (e a0 : Archive) (c : List Nat)
    (now : Int) (f g : String) (hmem : store.any (idIs e.id) = true) :
    saveGivenExisting store (some e) a0 c now f g true
      = { store := store.filter (fun d => !idIs e.id d)
            ++ [mkStoredDoc (bumpedArchive e a0 now) c.length now g]
        , result := .ok { bumpedArchive e a0 now with size := c.length } } := by
  unfold saveGivenExisting
  simp [hmem]

theorem saveGivenExisting_head_fail (store : Store) (e a0 : Archive) (c : List Nat)
    (now : Int) (f g : String) (hmem : store.any (idIs e.id) = true) :
    saveGivenExisting store (some e) a0 c now f g false
      = { store := store.filter (fun d => !idIs e.id d)
        , result := .error "failed to write file content" } := by
  unfold saveGivenExisting
  simp [hmem]

theorem saveGivenExisting_fresh (store : Store) (a0 : Archive) (c : List Nat)
    (now : Int) (f g : String) :
    saveGivenExisting store none a0 c now f g true
      = { store := store ++ [mkStoredDoc (freshArchive a0 now f) c.length now g]
        , result := .ok { freshArchive a0 now f with size := c.length } } := rfl

/-! ## Sequential uploads under one name -/

/-- The shape of the single stored head document that sequential uploads
under one filename maintain. -/
def headShape (nm : String) (v : Int) (d : BDoc) : Prop :=
  matchesExisting nm d = true ∧
  ∃ ar, mapToArchive d = some ar ∧ ar.version = v ∧ ar.name = nm ∧
    getField d "_id" = some (.oid ar.id)

theorem headShape_mkStoredDoc (a : Archive) (len now : Int) (o nm : String) (v : Int)
    (hnm : a.name = nm) (hv : a.version = v) :
    headShape nm v (mkStoredDoc a len now o) := by
  refine ⟨?_, readBack a len now o, mapToArchive_mkStoredDoc a len now o, hv, hnm, rfl⟩
  have h1 : matchesExisting nm (mkStoredDoc a len now o) = ((a.name == nm) && true) := rfl
  rw [h1, hnm]
  simp

theorem findExisting_single (d : BDoc) (a ar : Archive)
    (hmatch : matchesExisting a.name d = true) (hmap : mapToArchive d = some ar) :
    findExistingArchive [d] a = some (some ar) := by
  unfold findExistingArchive
  have hf : List.filter (matchesExisting a.name) [d] = [d] := by
    simp [List.filter, hmatch]
  rw [hf]
  simp [List.foldlM, resolveStep, hmap]

theorem anyIdOf (d : BDoc) (s : String) (hid : getField d "_id" = some (.oid s)) :
    [d].any (idIs s) = true := by
  simp [idIs, hid]

theorem filterIdOf (d : BDoc) (s : String) (hid : getField d "_id" = some (.oid s)) :
    [d].filter (fun x => !idIs s x) = [] := by
  simp [idIs, hid]

/-- One version bump over a single-document store. -/
theorem uploadArchive_bump (d : BDoc) (ar : Archive) (file : FileContent)
    (md : ArchiveMetadata) (now : Int) (f g : String)
    (hmatch : matchesExisting file.name d = true)
    (hmap : mapToArchive d = some ar)
    (hid : getField d "_id" = some (.oid ar.id)) :
    uploadArchive [d] file md now f g true
      = some { store := [mkStoredDoc (bumpedArchive ar (seededArchive file md (some ar)) now)
                  file.content.length now g]
             , result := .ok { bumpedArchive ar (seededArchive file md (some ar)) now with
                  size := file.content.length } } := by
  have hres : findExistingArchive [d] (uploadProbe file md) = some (some ar) :=
    findExisting_single d _ ar hmatch hmap
  have hres2 : findExistingArchive [d] (seededArchive file md (some ar)) = some (some ar) :=
    findExisting_single d _ ar hmatch hmap
  rw [uploadArchive_resolved _ _ _ _ _ _ _ _ hres,
      saveWithVersioning_resolved _ _ _ _ _ _ _ _ hres2,
      saveGivenExisting_head _ _ _ _ _ _ _ (anyIdOf d ar.id hid),
      filterIdOf d ar.id hid]
  rfl

/-- The very first upload over the empty store. -/
theorem uploadArchive_first (file : FileContent) (md : ArchiveMetadata)
    (now : Int) (f g : String) :
    uploadArchive [] file md now f g true
      = some { store := [mkStoredDoc (freshArchive (uploadBase file md) now f)
                  file.content.length now g]
             , result := .ok { freshArchive (uploadBase file md) now f with
                  size := file.content.length } } := by
  have hres : findExistingArchive [] (uploadProbe file md) = some none := rfl
  have hres2 : findExistingArchive [] (seededArchive file md none) = some none := rfl
  rw [uploadArchive_resolved _ _ _ _ _ _ _ _ hres,
      saveWithVersioning_resolved _ _ _ _ _ _ _ _ hres2,
      saveGivenExisting_fresh]
  rfl

/-- `n` sequential uploads of the same file under the same metadata, with
step `i` run at instant `i` and GridFS/ObjectID generators `fF`/`gF`;
returns the final store and the version numbers handed back, in order. -/
def runUploads (file : FileContent) (md : ArchiveMetadata) (fF gF : Nat → String) :
    Nat → Option (Store × List Int)
  | 0 => some ([], [])
  | n + 1 =>
    match runUploads file md fF gF n with
    | none => none
    | some (st, vs) =>
      match uploadArchive st file md ((n : Int) + 1) (fF (n + 1)) (gF (n + 1)) true with
      | none => none
      | some out =>
        match out.result with
        | .ok a => some (out.store, vs ++ [a.version])
        | .error _ => none

/-- The expected version sequence `[1, 2, …, n]`. -/
def versionsUpTo (n : Nat) : List Int :=
  (List.range n).map (fun (i : Nat) => ((i : Int) + 1))

theorem versionsUpTo_succ (n : Nat) :
    versionsUpTo (n + 1) = versionsUpTo n ++ [(n : Int) + 1] := by
  unfold versionsUpTo
  rw [List.range_succ, List.map_append]
  rfl

/-- After `n` sequential uploads the store holds exactly one head document
of version `n`, and the versions handed back so far are `[1, …, n]`. -/
theorem runUploads_inv (file : FileContent) (md : ArchiveMetadata) (fF gF : Nat → String) :
    ∀ n : Nat,
      (runUploads file md fF gF n = some ([], []) ∧ n = 0) ∨
      ∃ d, runUploads file md fF gF n = some ([d], versionsUpTo n) ∧
        headShape file.name ((n : Nat) : Int) d := by
  intro n
  induction n with
  | zero => exact Or.inl ⟨rfl, rfl⟩
  | succ n ih =>
    right
    rcases ih with ⟨h0, hn0⟩ | ⟨d, hrun, hshape⟩
    · subst hn0
      have hup := uploadArchive_first file md (((0 : Nat) : Int) + 1) (fF 1) (gF 1)
      refine ⟨mkStoredDoc (freshArchive (uploadBase file md) (((0 : Nat) : Int) + 1) (fF 1))
          file.content.length (((0 : Nat) : Int) + 1) (gF 1), ?_, ?_⟩
      · show runUploads file md fF gF 1 = _
        unfold runUploads
        rw [h0]
        dsimp only
        rw [hup]
        dsimp only
        simp only [versionsUpTo, freshArchive, List.nil_append]
        norm_num [List.range_succ]
      · exact headShape_mkStoredDoc _ _ _ _ _ _ rfl (by push_cast; rfl)
    · obtain ⟨hmatch, ar, hmap, hver, hnm, hid⟩ := hshape
      have hmatch' : matchesExisting file.name d = true := by
        rw [← hnm]
        exact hnm ▸ hmatch
      have hup := uploadArchive_bump d ar file md (((n : Nat) : Int) + 1) (fF (n + 1)) (gF (n + 1))
        hmatch' hmap hid
      refine ⟨mkStoredDoc (bumpedArchive ar (seededArchive file md (some ar)) (((n : Nat) : Int) + 1))
          file.content.length (((n : Nat) : Int) + 1) (gF (n + 1)), ?_, ?_⟩
      · show runUploads file md fF gF (n + 1) = _
        unfold runUploads
        rw [hrun]
        dsimp only
        rw [hup]
        dsimp only
        rw [versionsUpTo_succ]
        have hv : (bumpedArchive ar (seededArchive file md (some ar)) (((n : Nat) : Int) + 1)).version
            = (n : Int) + 1 := by
          show ar.version + 1 = (n : Int) + 1
          rw [hver]
        rw [hv]
      · apply headShape_mkStoredDoc
        · show (seededArchive file md (some ar)).name = file.name
          exact seededArchive_name file md (some ar)
        · show ar.version + 1 = ((n + 1 : Nat) : Int)
          rw [hver]
          push_cast
          rfl

/-! ## The `FindByIDs` contract -/

/-- A requested id resolves when some stored document carries it and is
not marked deleted in its metadata. -/
def resolves (store : Store) (id : String) : Bool :=
  store.any (fun d => idIs id d && metaNull d "deleted_at")

theorem idIs_eq (id : String) (d : BDoc) (h : idIs id d = true) :
    getField d "_id" = some (.oid id) := by
  unfold idIs at h
  split at h
  · rename_i s hs
    rw [hs, beq_iff_eq.mp h]
  · cases h

theorem matched_nil_of_noresolve (store : Store) (ids : List String)
    (h : ids.any (resolves store) = false) :
    store.filter (findByIDsFilter ids) = [] := by
  apply List.filter_eq_nil_iff.mpr
  intro d hd hdf
  obtain ⟨h1, h2⟩ := Bool.and_eq_true _ _ |>.mp hdf
  split at h1
  · rename_i s hs
    have hsmem : s ∈ ids := List.elem_iff.mp h1
    have hres : resolves store s = true := by
      refine List.any_eq_true.mpr ⟨d, hd, ?_⟩
      have hii : idIs s d = true := by
        unfold idIs
        rw [hs]
        simp
      rw [hii, h2]
      rfl
    have hany := List.any_eq_true.mpr ⟨s, hsmem, hres⟩
    rw [h] at hany
    cases hany
  · cases h1

theorem matched_ne_nil_of_resolve (store : Store) (ids : List String) (id : String)
    (hid : id ∈ ids) (hres : resolves store id = true) :
    (store.filter (findByIDsFilter ids)).isEmpty = false := by
  obtain ⟨d, hd, hdp⟩ := List.any_eq_true.mp hres
  obtain ⟨hdi, hdm⟩ := Bool.and_eq_true _ _ |>.mp hdp
  have hmem : d ∈ store.filter (findByIDsFilter ids) := by
    refine List.mem_filter.mpr ⟨hd, ?_⟩
    unfold findByIDsFilter
    rw [idIs_eq id d hdi]
    simp only [hdm, Bool.and_true]
    exact List.elem_iff.mpr hid
  cases he : (store.filter (findByIDsFilter ids)).isEmpty
  · rfl
  · rw [List.isEmpty_iff] at he
    rw [he] at hmem
    cases hmem

theorem optionMapM_forall₂ {α β : Type} (f : α → Option β) (l : List α)
    (h : ∀ x ∈ l, (f x).isSome = true) :
    ∃ ys, optionMapM f l = some ys ∧ List.Forall₂ (fun x y => f x = some y) l ys := by
  induction l with
  | nil => exact ⟨[], rfl, List.Forall₂.nil⟩
  | cons x xs ih =>
    obtain ⟨y, hy⟩ := Option.isSome_iff_exists.mp (h x (List.mem_cons_self x xs))
    obtain ⟨ys, hys, hfa⟩ := ih (fun z hz => h z (List.mem_cons_of_mem x hz))
    refine ⟨y :: ys, ?_, List.Forall₂.cons hy hfa⟩
    unfold optionMapM
    rw [hy, hys]
    rfl

theorem forall₂_mem_right {α β : Type} {R : α → β → Prop} {l : List α} {ys : List β}
    (h : List.Forall₂ R l ys) {b : β} (hb : b ∈ ys) : ∃ a ∈ l, R a b := by
  induction h with
  | nil => cases hb
  | cons hr _ ih =>
    rcases List.mem_cons.mp hb with hb | hb
    · exact ⟨_, List.mem_cons_self _ _, hb ▸ hr⟩
    · obtain ⟨a, ha, har⟩ := ih hb
      exact ⟨a, List.mem_cons_of_mem _ ha, har⟩

theorem forall₂_mem_left {α β : Type} {R : α → β → Prop} {l : List α} {ys : List β}
    (h : List.Forall₂ R l ys) {a : α} (ha : a ∈ l) : ∃ b ∈ ys, R a b := by
  induction h with
  | nil => cases ha
  | cons hr _ ih =>
    rcases List.mem_cons.mp ha with ha | ha
    · exact ⟨_, List.mem_cons_self _ _, ha ▸ hr⟩
    · obtain ⟨b, hb, hbr⟩ := ih ha
      exact ⟨b, List.mem_cons_of_mem _ hb, hbr⟩

theorem filterMap_map_proj {α β : Type} (g : α → Option β) (proj : β → α) (l : List α)
    (h : ∀ x b, g x = some b → proj b = x) :
    (l.filterMap g).map proj = l.filter (fun x => (g x).isSome) := by
  induction l with
  | nil => rfl
  | cons x xs ih =>
    rw [List.filterMap_cons, List.filter_cons]
    cases hg : g x with
    | none =>
      simp only [hg, Option.isSome_none, Bool.false_eq_true, if_false]
      exact ih
    | some b =>
      simp only [hg, Option.isSome_some, if_true, List.map_cons]
      rw [h x b hg, ih]

theorem matched_any_eq_resolves (store : Store) (ids : List String) (id : String)
    (hid : id ∈ ids) :
    (store.filter (findByIDsFilter ids)).any (idIs id) = resolves store id := by
  rw [Bool.eq_iff_iff]
  constructor
  · intro h
    obtain ⟨d, hd, hdi⟩ := List.any_eq_true.mp h
    obtain ⟨hds, hdf⟩ := List.mem_filter.mp hd
    exact List.any_eq_true.mpr ⟨d, hds, by
      rw [hdi]
      simp only [Bool.true_and]
      exact (Bool.and_eq_true _ _ |>.mp hdf).2⟩
  · intro h
    obtain ⟨d, hd, hdp⟩ := List.any_eq_true.mp h
    obtain ⟨hdi, hdm⟩ := Bool.and_eq_true _ _ |>.mp hdp
    refine List.any_eq_true.mpr ⟨d, List.mem_filter.mpr ⟨hd, ?_⟩, hdi⟩
    unfold findByIDsFilter
    rw [idIs_eq id d hdi]
    simp only [hdm, Bool.and_true]
    exact List.elem_iff.mpr hid

theorem find?_isSome_eq_any (store : Store) (ids : List String) (id : String)
    (mapped : List Archive)
    (hfa : List.Forall₂ (fun d a => mapToArchive d = some a)
      (store.filter (findByIDsFilter ids)) mapped) :
    (mapped.find? (fun a => a.id == id)).isSome
      = (store.filter (findByIDsFilter ids)).any (idIs id) := by
  rw [Bool.eq_iff_iff, List.find?_isSome]
  constructor
  · rintro ⟨a, ha, hai⟩
    obtain ⟨d, hd, hda⟩ := forall₂_mem_right hfa ha
    refine List.any_eq_true.mpr ⟨d, hd, ?_⟩
    have hinv := (mapToArchive_inv d a hda).1
    unfold idIs
    rw [hinv]
    exact hai
  · intro h
    obtain ⟨d, hd, hdi⟩ := List.any_eq_true.mp h
    obtain ⟨a, ha, hda⟩ := forall₂_mem_left hfa hd
    refine ⟨a, ha, ?_⟩
    have hinv := (mapToArchive_inv d a hda).1
    have hq := idIs_eq id d hdi
    rw [hq] at hinv
    cases hinv
    simp

/-- The `FindByIDs` contract on a store whose documents all decode: an
id-only error when nothing resolves, and otherwise the found items in the
requested order with unresolved ids skipped silently. -/
theorem findByIDs_spec (store : Store) (ids : List String)
    (hval : ids.all validHex = true)
    (hwf : ∀ d ∈ store, (mapToArchive d).isSome = true) :
    (ids.any (resolves store) = false →
      findByIDs store ids = some (.error .notFound)) ∧
    (ids.any (resolves store) = true →
      ∃ l, findByIDs store ids = some (.ok l) ∧
        l.map (fun a => a.id) = ids.filter (resolves store)) := by
  constructor
  · intro hno
    unfold findByIDs
    rw [if_neg (by simp [hval])]
    rw [matched_nil_of_noresolve store ids hno]
    rfl
  · intro hyes
    obtain ⟨id0, hid0, hres0⟩ := List.any_eq_true.mp hyes
    have hwfm : ∀ d ∈ store.filter (findByIDsFilter ids), (mapToArchive d).isSome = true :=
      fun d hd => hwf d (List.mem_filter.mp hd).1
    obtain ⟨mapped, hmap, hfa⟩ := optionMapM_forall₂ mapToArchive _ hwfm
    have hkey : ∀ id ∈ ids,
        (mapped.find? (fun a => a.id == id)).isSome = resolves store id := by
      intro id hid
      rw [find?_isSome_eq_any store ids id mapped hfa,
        matched_any_eq_resolves store ids id hid]
    have hproj : (ids.filterMap (fun id => mapped.find? (fun a => a.id == id))).map
          (fun a => a.id)
        = ids.filter (resolves store) := by
      have harg : ∀ (id : String) (a : Archive),
          mapped.find? (fun a => a.id == id) = some a → a.id = id := by
        intro id a hfind
        have hp := List.find?_some hfind
        exact beq_iff_eq.mp hp
      rw [filterMap_map_proj (fun id => mapped.find? (fun a => a.id == id)) (fun a => a.id)
        ids harg]
      exact List.filter_congr hkey
    refine ⟨ids.filterMap (fun id => mapped.find? (fun a => a.id == id)), ?_, hproj⟩
    unfold findByIDs
    rw [if_neg (by simp [hval]),
        if_neg (by rw [matched_ne_nil_of_resolve store ids id0 hid0 hres0]; exact Bool.false_ne_true),
        hmap]
    have hane : (ids.filterMap (fun id => mapped.find? (fun a => a.id == id))).isEmpty = false := by
      cases he : (ids.filterMap (fun id => mapped.find? (fun a => a.id == id))).isEmpty
      · rfl
      · rw [List.isEmpty_iff] at he
        rw [he] at hproj
        have hmm : id0 ∈ ids.filter (resolves store) := List.mem_filter.mpr ⟨hid0, hres0⟩
        rw [← hproj] at hmm
        cases hmm
    dsimp only
    rw [hane]
    rfl

/-! ## Metadata-update lemmas -/

theorem getField_setMetaField_ne (d : BDoc) (k : String) (v : BVal) (k' : String)
    (h : k' ≠ "metadata") :
    getField (setMetaField d k v) k' = getField d k' := by
  unfold setMetaField
  split
  · exact getField_setField_ne d "metadata" k' _ h
  · exact getField_setField_ne d "metadata" k' _ h

theorem getMeta_setMetaField (d : BDoc) (k : String) (v : BVal) :
    ∃ m', getMeta (setMetaField d k v) = some m' ∧ getField m' k = some v ∧
      (∀ k', k' ≠ k → getField m' k' = getMetaField d k') := by
  unfold setMetaField
  split
  · rename_i m hm
    refine ⟨setField m k v, ?_, getField_setField m k v, ?_⟩
    · unfold getMeta
      rw [getField_setField]
    · intro k' hk'
      rw [getField_setField_ne m k k' v hk']
      unfold getMetaField getMeta
      rw [hm]
      rfl
  · rename_i hm
    refine ⟨[(k, v)], ?_, ?_, ?_⟩
    · unfold getMeta
      rw [getField_setField]
    · rw [getField_cons]
      simp
    · intro k' hk'
      rw [getField_cons]
      have : (k == k') = false := by
        cases hkk : k == k'
        · rfl
        · exact absurd (beq_iff_eq.mp hkk).symm hk'
      simp only [this, Bool.false_eq_true, if_false, getField_nil]
      unfold getMetaField getMeta
      cases hgm : getField d "metadata" with
      | none => rfl
      | some v' =>
        cases v' with
        | doc m => exact absurd hgm (by intro hc; exact hm _ hc)
        | str s => rfl
        | i32 n => rfl
        | i64 n => rfl
        | dt n => rfl
        | bool b => rfl
        | oid s => rfl
        | arr l => rfl
        | null => rfl

theorem getMetaField_setMetaField (d : BDoc) (k : String) (v : BVal) :
    getMetaField (setMetaField d k v) k = some v := by
  obtain ⟨m', hm', hk, _⟩ := getMeta_setMetaField d k v
  unfold getMetaField
  rw [hm']
  exact hk

theorem getMetaField_setMetaField_ne (d : BDoc) (k : String) (v : BVal) (k' : String)
    (h : k' ≠ k) :
    getMetaField (setMetaField d k v) k' = getMetaField d k' := by
  obtain ⟨m', hm', _, hother⟩ := getMeta_setMetaField d k v
  unfold getMetaField
  rw [hm']
  exact hother k' h

theorem getMetaField_unsetField_top (d : BDoc) (k k' : String) (h : k ≠ "metadata") :
    getMetaField (unsetField d k) k' = getMetaField d k' := by
  unfold getMetaField getMeta
  rw [getField_unsetField_ne d k "metadata" (fun he => h he.symm)]

theorem updateFirst_map_invariant {γ : Type} (p : BDoc → Bool) (f : BDoc → BDoc)
    (g : BDoc → γ) (store : Store) (hg : ∀ d, g (f d) = g d) :
    (updateFirst p f store).map g = store.map g := by
  induction store with
  | nil => rfl
  | cons d ds ih =>
    unfold updateFirst
    by_cases hp : p d
    · simp only [hp, if_true, List.map_cons, hg d]
    · simp only [hp, Bool.false_eq_true, if_false, List.map_cons, ih]

theorem updateFirst_find? (p : BDoc → Bool) (f : BDoc → BDoc) (store : Store) (d : BDoc)
    (h : store.find? p = some d) (hf : p (f d) = true) :
    (updateFirst p f store).find? p = some (f d) := by
  induction store with
  | nil => cases h
  | cons e es ih =>
    unfold updateFirst
    by_cases hp : p e
    · rw [List.find?_cons_of_pos _ hp] at h
      cases h
      simp only [hp, if_true]
      rw [List.find?_cons_of_pos _ hf]
    · rw [List.find?_cons_of_neg _ (by simp [hp])] at h
      simp only [hp, Bool.false_eq_true, if_false]
      rw [List.find?_cons_of_neg _ (by simp [hp]), ih h]

/-! ## Expired TempDeleted records and the read paths -/

/-- A document in the TempDeleted state (as `tempDelete` writes it) whose
expiry instant has passed. -/
def tempExpired (now : Int) (d : BDoc) : Bool :=
  optBoolD d "is_temp" &&
    (match optDt d "expires_at" with
     | some e => e < now
     | none => false)

theorem topNull_some_dt (d : BDoc) (k : String) (t : Int)
    (h : getField d k = some (.dt t)) : topNull d k = false := by
  unfold topNull
  rw [h]

theorem topDtGt_false_of_lt (d : BDoc) (k : String) (t now : Int)
    (h : getField d k = some (.dt t)) (hn : ¬ now < t) : topDtGt d k now = false := by
  unfold topDtGt
  rw [h]
  exact decide_eq_false hn

theorem findAllFilter_false_of_pastExpiry (now : Int) (d : BDoc) (e : Int)
    (he : optDt d "expires_at" = some e) (hlt : e < now) :
    findAllFilter now d = false := by
  unfold optDt at he
  split at he
  · rename_i t hgf
    cases he
    unfold findAllFilter
    rw [topNull_some_dt d _ _ hgf,
        topDtGt_false_of_lt d _ _ now hgf (not_lt.mpr (le_of_lt hlt))]
    simp
  · cases he

/-- `FindAll` gives the same answer whether or not expired TempDeleted
documents are first removed from the store: its filter already excludes
every document with a past expiry. -/
theorem findAll_ignores_expired (store : Store) (page limit : Nat) (now : Int) :
    findAll store page limit now
      = findAll (store.filter (fun d => !tempExpired now d)) page limit now := by
  have hfe : (store.filter (fun d => !tempExpired now d)).filter (findAllFilter now)
      = store.filter (findAllFilter now) := by
    rw [List.filter_filter]
    apply List.filter_congr
    intro d _
    cases ht : tempExpired now d
    · simp
    · obtain ⟨_, h2⟩ := Bool.and_eq_true _ _ |>.mp ht
      have hfa : findAllFilter now d = false := by
        revert h2
        cases he : optDt d "expires_at" with
        | none => intro h2; cases h2
        | some e =>
          intro h2
          have h2' : decide (e < now) = true := h2
          exact findAllFilter_false_of_pastExpiry now d e he (of_decide_eq_true h2')
      rw [hfa]
      simp
  unfold findAll
  rw [hfe]

/-- A successful `FindByID` never hands back a deleted or expired record:
the returned archive carries no `deletedAt` and its `expiresAt`, if any,
lies in the future. -/
theorem findByID_ok_inv (store : Store) (id : String) (now : Int) (a : Archive)
    (bytes : List Nat) (h : findByID store id now = some (.ok (a, bytes))) :
    a.deletedAt = none ∧ ∀ e, a.expiresAt = some e → ¬ e < now := by
  unfold findByID at h
  split at h
  · cases h
  · split at h
    · cases h
    · rename_i doc hdoc
      rcases Option.bind_eq_some.mp h with ⟨up, hup, h⟩
      split at h
      · cases h
      · rename_i hds
        have hdn : optDt doc "deleted_at" = none :=
          Option.not_isSome_iff_eq_none.mp (by simpa using hds)
        split at h
        · rename_i e he
          split at h
          · cases h
          · rename_i hlt
            rcases Option.bind_eq_some.mp h with ⟨nm, hnm, h⟩
            rcases Option.bind_eq_some.mp h with ⟨len, hlen, h⟩
            cases h
            constructor
            · show (foundArchive id nm len up (optDt doc "deleted_at") (some e)
                (optBoolD doc "is_temp")).deletedAt = none
              simp [foundArchive, hdn]
            · intro e' he'
              have he2 : some e = some e' := he'
              cases he2
              exact hlt
        · rename_i he
          rcases Option.bind_eq_some.mp h with ⟨nm, hnm, h⟩
          rcases Option.bind_eq_some.mp h with ⟨len, hlen, h⟩
          cases h
          constructor
          · show (foundArchive id nm len up (optDt doc "deleted_at") none
              (optBoolD doc "is_temp")).deletedAt = none
            simp [foundArchive, hdn]
          · intro e' he'
            have he2 : (none : Option Int) = some e' := he'
            cases he2


/-! ## Single-document read lemmas -/
theorem findByIDs_single (d : BDoc) (a : Archive) (id : String)
    (hval : validHex id = true) (hid : getField d "_id" = some (.oid id))
    (hmeta : metaNull d "deleted_at" = true) (hmap : mapToArchive d = some a) :
    findByIDs [d] [id] = some (.ok [a]) := by
  have haid : a.id = id := by
    have hinv := (mapToArchive_inv d a hmap).1
    rw [hid] at hinv
    injection hinv with h1
    injection h1 with h2
    exact h2.symm
  have hfil : findByIDsFilter [id] d = true := by
    unfold findByIDsFilter
    rw [hid]
    simp [hmeta]
  have hfl : List.filter (findByIDsFilter [id]) [d] = [d] := by
    simp [List.filter, hfil]
  unfold findByIDs
  rw [if_neg (by simp [hval]), hfl]
  have hm : optionMapM mapToArchive [d] = some [a] := by
    unfold optionMapM optionMapM
    rw [hmap]
    rfl
  rw [if_neg (by simp), hm]
  simp [List.filterMap_cons, List.find?, haid]

theorem getByCategory_single (d : BDoc) (a : Archive) (c : String)
    (hcat : categoryMatches c d = true) (hmap : mapToArchive d = some a) :
    getByCategory [d] c 1 1 = some ([a], 1) := by
  have hfl : List.filter (categoryMatches c) [d] = [d] := by
    simp [List.filter, hcat]
  unfold getByCategory
  rw [hfl]
  have hm : optionMapM mapToArchive [d] = some [a] := by
    unfold optionMapM optionMapM
    rw [hmap]
    rfl
  show Bind.bind (optionMapM mapToArchive (((sortByUpdatedDesc [d]).drop ((1 - 1) * 1)).take 1)) _ = _
  have hsort : sortByUpdatedDesc [d] = [d] := rfl
  rw [hsort]
  show Bind.bind (optionMapM mapToArchive [d]) _ = _
  rw [hm]
  rfl

theorem getByTags_single (d : BDoc) (a : Archive) (tags : List String)
    (htag : tagsMatch tags d = true) (hmap : mapToArchive d = some a) :
    getByTags [d] tags 1 1 = some ([a], 1) := by
  have hfl : List.filter (tagsMatch tags) [d] = [d] := by
    simp [List.filter, htag]
  unfold getByTags
  rw [hfl]
  have hm : optionMapM mapToArchive [d] = some [a] := by
    unfold optionMapM optionMapM
    rw [hmap]
    rfl
  show Bind.bind (optionMapM mapToArchive (((sortByUpdatedDesc [d]).drop ((1 - 1) * 1)).take 1)) _ = _
  have hsort : sortByUpdatedDesc [d] = [d] := rfl
  rw [hsort]
  show Bind.bind (optionMapM mapToArchive [d]) _ = _
  rw [hm]
  rfl

/-! ## Restore lemmas -/

theorem restoreArchive_single (d : BDoc) (id : String) (now : Int) (meta : BDoc)
    (owner : String) (oldLogs : List ChangeLog)
    (hval : validHex id = true)
    (hfil : restoreFilter id d = true)
    (hmeta : getField d "metadata" = some (.doc meta))
    (howner : getField meta "owner_id" = some (.str owner))
    (hlogs : readLogsSkipping (getField meta "change_logs") = some oldLogs) :
    restoreArchive [d] id now
      = some ([restoreUpdate (oldLogs ++ [restoreEntry owner now]) now d], .ok ()) := by
  have hid : idIs id d = true := (Bool.and_eq_true _ _ |>.mp hfil).1
  unfold restoreArchive
  rw [if_neg (by simp [hval]), List.find?_cons_of_pos _ hfil]
  dsimp only
  rw [show asDoc (getField d "metadata") = some meta by rw [hmeta]; rfl]
  show Bind.bind (asStr (getField meta "owner_id")) _ = _
  rw [show asStr (getField meta "owner_id") = some owner by rw [howner]; rfl]
  show Bind.bind (readLogsSkipping (getField meta "change_logs")) _ = _
  rw [hlogs]
  show some (updateFirst (idIs id) (restoreUpdate (oldLogs ++ [restoreEntry owner now]) now) [d],
    Except.ok ()) = _
  have hup : updateFirst (idIs id) (restoreUpdate (oldLogs ++ [restoreEntry owner now]) now) [d]
      = [restoreUpdate (oldLogs ++ [restoreEntry owner now]) now d] := by
    unfold updateFirst
    rw [hid]
    rfl
  rw [hup]

theorem restoreUpdate_fields (logs : List ChangeLog) (now : Int) (d : BDoc) :
    getField (restoreUpdate logs now d) "deleted_at" = none ∧
    getField (restoreUpdate logs now d) "expires_at" = getField d "expires_at" ∧
    getField (restoreUpdate logs now d) "is_temp" = getField d "is_temp" ∧
    getMetaField (restoreUpdate logs now d) "change_logs" = some (.arr (logs.map changeLogToB)) ∧
    getMetaField (restoreUpdate logs now d) "updated_at" = some (.dt now) := by
  unfold restoreUpdate
  refine ⟨getField_unsetField _ _, ?_, ?_, ?_, ?_⟩
  · rw [getField_unsetField_ne _ _ _ (by decide),
        getField_setMetaField_ne _ _ _ _ (by decide),
        getField_setMetaField_ne _ _ _ _ (by decide)]
  · rw [getField_unsetField_ne _ _ _ (by decide),
        getField_setMetaField_ne _ _ _ _ (by decide),
        getField_setMetaField_ne _ _ _ _ (by decide)]
  · rw [getMetaField_unsetField_top _ _ _ (by decide),
        getMetaField_setMetaField_ne _ _ _ _ (by decide)]
    exact getMetaField_setMetaField _ _ _
  · rw [getMetaField_unsetField_top _ _ _ (by decide)]
    exact getMetaField_setMetaField _ _ _

/-- A restore through the plain repository `Restore` on a present
document: all three lifecycle fields are unset, the metadata (and so the
change log) is untouched. -/
theorem repoRestore_present (store : Store) (id : String)
    (hval : validHex id = true) (hmem : store.any (idIs id) = true) :
    repoRestore store id
      = (updateFirst (idIs id)
          (fun d => unsetField (unsetField (unsetField d "deleted_at") "expires_at") "is_temp")
          store, .ok ()) := by
  unfold repoRestore
  rw [if_neg (by simp [hval]), if_pos hmem]



/-! ## Legacy documents and the read paths -/

theorem mapToArchive_legacy (file : FileContent) (now : Int) (o : String) :
    mapToArchive (mkLegacyDoc file now o) = none := rfl

theorem findAll_legacy_panics (file : FileContent) (now now' : Int) (o : String)
    (limit : Nat) (hl : limit ≠ 0) :
    findAll (save [] file now o) 1 limit now' = none := by
  obtain ⟨k, rfl⟩ : ∃ k, limit = k + 1 := ⟨limit - 1, by omega⟩
  unfold findAll save
  simp only [List.nil_append]
  have hfa : findAllFilter now' (mkLegacyDoc file now o) = true := rfl
  have hfl : List.filter (findAllFilter now') [mkLegacyDoc file now o]
      = [mkLegacyDoc file now o] := by
    simp [List.filter, hfa]
  rw [hfl]
  rw [show ((1 : Nat) - 1) * (k + 1) = 0 by simp]
  show Bind.bind (optionMapM mapToArchive [mkLegacyDoc file now o]) _ = none
  rfl

theorem findByIDs_legacy_panics (file : FileContent) (now : Int) (o : String)
    (hval : validHex o = true) :
    findByIDs (save [] file now o) [o] = none := by
  unfold findByIDs save
  simp only [List.nil_append]
  rw [if_neg (by simp [hval])]
  have hfil : findByIDsFilter [o] (mkLegacyDoc file now o) = true := by
    unfold findByIDsFilter
    rw [show getField (mkLegacyDoc file now o) "_id" = some (.oid o) from rfl]
    simp [show metaNull (mkLegacyDoc file now o) "deleted_at" = true from rfl]
  have hfl : List.filter (findByIDsFilter [o]) [mkLegacyDoc file now o]
      = [mkLegacyDoc file now o] := by
    simp [List.filter, hfil]
  rw [hfl]
  rw [if_neg (by simp)]
  rfl

theorem getByCategory_legacy (file : FileContent) (now : Int) (o : String)
    (c : String) (page limit : Nat) :
    getByCategory (save [] file now o) c page limit = some ([], 0) := by
  unfold getByCategory save
  simp only [List.nil_append]
  have hcm : categoryMatches c (mkLegacyDoc file now o) = false := rfl
  have hfl : List.filter (categoryMatches c) [mkLegacyDoc file now o] = [] := by
    simp [List.filter, hcm]
  rw [hfl]
  show Bind.bind (optionMapM mapToArchive
    (((sortByUpdatedDesc []).drop ((page - 1) * limit)).take limit)) _ = _
  rw [show sortByUpdatedDesc [] = [] from rfl, List.drop_nil, List.take_nil]
  rfl

theorem getByTags_legacy (file : FileContent) (now : Int) (o : String)
    (tags : List String) (page limit : Nat) :
    getByTags (save [] file now o) tags page limit = some ([], 0) := by
  unfold getByTags save
  simp only [List.nil_append]
  have htm : tagsMatch tags (mkLegacyDoc file now o) = false := by
    unfold tagsMatch
    cases htags : tags.isEmpty
    · rw [show getMetaField (mkLegacyDoc file now o) "tags" = none from rfl]
      simp
    · simp
  have hfl : List.filter (tagsMatch tags) [mkLegacyDoc file now o] = [] := by
    simp [List.filter, htm]
  rw [hfl]
  show Bind.bind (optionMapM mapToArchive
    (((sortByUpdatedDesc []).drop ((page - 1) * limit)).take limit)) _ = _
  rw [show sortByUpdatedDesc [] = [] from rfl, List.drop_nil, List.take_nil]
  rfl

theorem any_filter_not (p : BDoc → Bool) (l : Store) :
    (l.filter (fun d => !p d)).any p = false := by
  induction l with
  | nil => rfl
  | cons d ds ih =>
    rw [List.filter_cons]
    cases hp : p d
    · simp only [hp, Bool.not_false, if_true, List.any_cons, hp, Bool.false_or]
      exact ih
    · simp only [hp, Bool.not_true, Bool.false_eq_true, if_false]
      exact ih

/-! ## Concrete fixtures

A small reachable history: alice uploads `report.pdf` (stored under the
GridFS id `oidB`), bob re-uploads the same filename (version bump, stored
under `oidD`), and the various deletes are applied on top. -/

def oidA : String := "aaaaaaaaaaaaaaaaaaaaaaaa"
def oidB : String := "bbbbbbbbbbbbbbbbbbbbbbbb"
def oidC : String := "cccccccccccccccccccccccc"
def oidD : String := "dddddddddddddddddddddddd"
def oidE : String := "eeeeeeeeeeeeeeeeeeeeeeee"

def mdAlice : ArchiveMetadata :=
  { category := "finance", type := "pdf", tags := ["q4"],
    description := "quarterly report", ownerID := "alice" }

def mdBob : ArchiveMetadata :=
  { category := "hr", type := "pdf", tags := ["q4", "draft"],
    description := "revised", ownerID := "bob" }

def fileReport : FileContent := { name := "report.pdf", content := [1, 2, 3], size := 3 }

def noOutcome : SaveOutcome := { store := [], result := .error "" }

/-- Store after alice's first upload at instant 100. -/
def store1 : Store :=
  ((uploadArchive [] fileReport mdAlice 100 oidA oidB true).getD noOutcome).store

/-- The head bob's upload resolves against. -/
def head1 : Archive :=
  match findExistingArchive store1 (uploadProbe fileReport mdBob) with
  | some (some h) => h
  | _ => Archive.empty

/-- Store after bob's version bump at instant 200. -/
def store2 : Store :=
  ((uploadArchive store1 fileReport mdBob 200 oidC oidD true).getD noOutcome).store

/-- `store2` with the record temp-deleted at instant 300 (so its expiry is
`300 + tempTTL`). -/
def store3 : Store := tempDelete store2 oidD 300

/-- `store1` with the record soft-deleted at instant 300. -/
def store1sd : Store := (deleteArchive store1 oidB .soft 300).1

/-! ## Claims -/

/-- C1: for every upload whose identity resolves to an existing head, the
result keeps the head's id and createdAt, has version = head.version + 1,
and appends one entry with action `update` to the head's change log (the
persisted metadata likewise carries the bumped version and the preserved
creation time); for every upload that resolves to no head, a new record is
created with version 1 and a change log holding exactly one `upload`
entry. -/
theorem c1_upload_versioning (store : Store) (file : FileContent) (md : ArchiveMetadata)
    (now : Int) (f g : String) (head : Archive) :
    (findExistingArchive store (uploadProbe file md) = some (some head) →
      ∃ a st, uploadArchive store file md now f g true = some ⟨st, .ok a⟩
        ∧ a.id = head.id ∧ a.createdAt = head.createdAt
        ∧ a.version = head.version + 1
        ∧ (∃ e, a.changeLogs = head.changeLogs ++ [e] ∧ e.action = "update")
        ∧ (∃ d', st = store.filter (fun x => !idIs head.id x) ++ [d']
            ∧ getMetaField d' "version" = some (.i32 (head.version + 1))
            ∧ getMetaField d' "created_at" = some (.dt head.createdAt)))
    ∧ (findExistingArchive store (uploadProbe file md) = some none →
      ∃ a d, uploadArchive store file md now f g true = some ⟨store ++ [d], .ok a⟩
        ∧ a.version = 1 ∧ ∃ e, a.changeLogs = [e] ∧ e.action = "upload") := by
  constructor
  · intro h
    have hsee : findExistingArchive store (seededArchive file md (some head))
        = some (some head) := by
      rw [findExisting_name_only store _ (uploadProbe file md)
        (by rw [seededArchive_name]; rfl)]
      exact h
    have hmem := findExisting_id_mem store _ head hsee
    rw [uploadArchive_resolved _ _ _ _ _ _ _ _ h,
        saveWithVersioning_resolved _ _ _ _ _ _ _ _ hsee,
        saveGivenExisting_head _ _ _ _ _ _ _ hmem]
    exact ⟨_, _, rfl, rfl, rfl, rfl, ⟨_, rfl, rfl⟩, ⟨_, rfl, rfl, rfl⟩⟩
  · intro h
    have hsee : findExistingArchive store (seededArchive file md none) = some none := by
      rw [findExisting_name_only store _ (uploadProbe file md)
        (by rw [seededArchive_name]; rfl)]
      exact h
    rw [uploadArchive_resolved _ _ _ _ _ _ _ _ h,
        saveWithVersioning_resolved _ _ _ _ _ _ _ _ hsee,
        saveGivenExisting_fresh]
    exact ⟨_, _, rfl, rfl, _, rfl, rfl⟩

/-- C1 witness: bob's concrete re-upload of `report.pdf` version-bumps
alice's record, and alice's first upload created a fresh version-1
record. -/
theorem c1_upload_versioning_witness :
    (findExistingArchive store1 (uploadProbe fileReport mdBob) = some (some head1)
      ∧ ∃ a st, uploadArchive store1 fileReport mdBob 200 oidC oidD true = some ⟨st, .ok a⟩
        ∧ a.id = head1.id ∧ a.createdAt = head1.createdAt
        ∧ a.version = head1.version + 1
        ∧ (∃ e, a.changeLogs = head1.changeLogs ++ [e] ∧ e.action = "update")
        ∧ (∃ d', st = store1.filter (fun x => !idIs head1.id x) ++ [d']
            ∧ getMetaField d' "version" = some (.i32 (head1.version + 1))
            ∧ getMetaField d' "created_at" = some (.dt head1.createdAt)))
    ∧ (findExistingArchive [] (uploadProbe fileReport mdAlice) = some none
      ∧ ∃ a d, uploadArchive [] fileReport mdAlice 100 oidA oidB true = some ⟨[] ++ [d], .ok a⟩
        ∧ a.version = 1 ∧ ∃ e, a.changeLogs = [e] ∧ e.action = "upload") :=
  ⟨⟨rfl, (c1_upload_versioning store1 fileReport mdBob 200 oidC oidD head1).1 rfl⟩,
   ⟨rfl, (c1_upload_versioning [] fileReport mdAlice 100 oidA oidB Archive.empty).2 rfl⟩⟩

/-- C3: evaluation of `SaveWithVersioning` at a failing content write.
The source deletes the head's GridFS file BEFORE opening the new upload
stream, so when the write then fails the call aborts with an error while
the prior version's files document is already gone from the store — the
metadata is changed and the prior version is not intact. -/
theorem c3_delete_before_write (store : Store) (a0 head : Archive) (c : List Nat)
    (now : Int) (f g : String)
    (h : findExistingArchive store a0 = some (some head)) :
    ∃ st, saveWithVersioning store a0 c now f g false
        = some ⟨st, .error "failed to write file content"⟩
      ∧ st = store.filter (fun d => !idIs head.id d)
      ∧ st.any (idIs head.id) = false := by
  have hmem := findExisting_id_mem store a0 head h
  rw [saveWithVersioning_resolved _ _ _ _ _ _ _ _ h,
      saveGivenExisting_head_fail _ _ _ _ _ _ _ hmem]
  exact ⟨_, rfl, rfl, any_filter_not _ _⟩

/-- C3 witness: concretely, a failed write of bob's re-upload leaves the
store empty — alice's version-1 record was destroyed by the delete that
ran first. -/
theorem c3_delete_before_write_witness :
    findExistingArchive store1 (uploadProbe fileReport mdBob) = some (some head1)
    ∧ ∃ st, saveWithVersioning store1 (uploadProbe fileReport mdBob) [9] 200 oidC oidD false
        = some ⟨st, .error "failed to write file content"⟩
      ∧ st = store1.filter (fun d => !idIs head1.id d)
      ∧ st.any (idIs head1.id) = false :=
  ⟨rfl, c3_delete_before_write store1 (uploadProbe fileReport mdBob) head1 [9] 200 oidC oidD rfl⟩

/-- C4 counterexample: `store3` holds a TempDeleted record (is_temp set,
expiry `300 + tempTTL = 86400300`) which is expired at instant 86400305,
yet `FindByIDs`, `GetByCategory` and `GetByTags` all return it — they
filter only on `metadata.deleted_at` and never consult the expiry. -/
theorem c4_counterexample :
    (∃ d, store3.head? = some d ∧ optBoolD d "is_temp" = true
      ∧ optDt d "expires_at" = some 86400300 ∧ (86400300 : Int) < 86400305)
    ∧ (∃ a, findByIDs store3 [oidD] = some (.ok [a]) ∧ a.id = oidD)
    ∧ (∃ a, getByCategory store3 "hr" 1 10 = some ([a], 1) ∧ a.id = oidD)
    ∧ (∃ a, getByTags store3 ["q4"] 1 10 = some ([a], 1) ∧ a.id = oidD) :=
  ⟨⟨_, rfl, rfl, rfl, by decide⟩, ⟨_, rfl, rfl⟩, ⟨_, rfl, rfl⟩, ⟨_, rfl, rfl⟩⟩

/-- C4 amended: `FindByID` never returns an expired TempDeleted record (a
successful read carries no deletion mark and an unexpired expiry) and
`FindAll`'s filter makes expired documents invisible to listing; but
`FindByIDs`, `GetByCategory` and `GetByTags` filter only on
`metadata.deleted_at`, so they return a stored document — expired
TempDeleted or not — whenever it matches their id/category/tags
condition. -/
theorem c4_expired_visibility :
    (∀ store id now a bytes, findByID store id now = some (.ok (a, bytes)) →
      a.deletedAt = none ∧ ∀ e, a.expiresAt = some e → ¬ e < now)
    ∧ (∀ store page limit now, findAll store page limit now
        = findAll (store.filter (fun d => !tempExpired now d)) page limit now)
    ∧ (∀ d a id, validHex id = true → getField d "_id" = some (.oid id) →
        metaNull d "deleted_at" = true → mapToArchive d = some a →
        findByIDs [d] [id] = some (.ok [a]))
    ∧ (∀ d a c, categoryMatches c d = true → mapToArchive d = some a →
        getByCategory [d] c 1 1 = some ([a], 1))
    ∧ (∀ d a tags, tagsMatch tags d = true → mapToArchive d = some a →
        getByTags [d] tags 1 1 = some ([a], 1)) :=
  ⟨findByID_ok_inv, findAll_ignores_expired,
   fun d a id h1 h2 h3 h4 => findByIDs_single d a id h1 h2 h3 h4,
   fun d a c h1 h2 => getByCategory_single d a c h1 h2,
   fun d a tags h1 h2 => getByTags_single d a tags h1 h2⟩

/-- C4 amended witness: the contract evaluated on the concrete expired
TempDeleted document of `store3`. -/
theorem c4_expired_visibility_witness :
    (∃ a bytes, findByID store2 oidD 250 = some (.ok (a, bytes))
      ∧ a.deletedAt = none ∧ ∀ e, a.expiresAt = some e → ¬ e < 250)
    ∧ (∃ d a, store3.head? = some d ∧ tempExpired 86400305 d = true
      ∧ validHex oidD = true ∧ getField d "_id" = some (.oid oidD)
      ∧ metaNull d "deleted_at" = true ∧ mapToArchive d = some a
      ∧ findByIDs [d] [oidD] = some (.ok [a])
      ∧ categoryMatches "hr" d = true ∧ getByCategory [d] "hr" 1 1 = some ([a], 1)
      ∧ tagsMatch ["q4"] d = true ∧ getByTags [d] ["q4"] 1 1 = some ([a], 1)) := by
  constructor
  · refine ⟨_, _, rfl, ?_⟩
    exact (c4_expired_visibility.1 store2 oidD 250 _ _ rfl)
  · refine ⟨_, _, rfl, by decide, by decide, rfl, rfl, rfl, ?_, rfl, ?_, rfl, ?_⟩
    · exact c4_expired_visibility.2.2.1 _ _ oidD (by decide) rfl rfl rfl
    · exact c4_expired_visibility.2.2.2.1 _ _ "hr" rfl rfl
    · exact c4_expired_visibility.2.2.2.2 _ _ ["q4"] rfl rfl

/-- C5 counterexample: alice and bob have different owner ids, yet bob's
upload of the same filename resolves to alice's record and version-bumps
it — the result keeps alice's record id `oidB`, reaches version 2, and
still carries alice's original `upload` history entry. -/
theorem c5_counterexample :
    mdAlice.ownerID ≠ mdBob.ownerID
    ∧ (∃ a st, uploadArchive store1 fileReport mdBob 200 oidC oidD true = some ⟨st, .ok a⟩
        ∧ a.version = 2 ∧ a.id = oidB ∧ a.ownerID = "bob"
        ∧ (a.changeLogs.head?.map (fun e => e.userID)) = some "alice") :=
  ⟨by decide, _, _, rfl, rfl, rfl, rfl, rfl⟩

/-- C5 amended: head resolution matches by exact filename equality alone —
the owner, category, type and tags of the incoming upload never influence
which record is resolved — so two uploads with the same name but
different ownerIds resolve to the same head, and the later upload
version-bumps the earlier owner's record (keeping its id). -/
theorem c5_resolution_name_only (store : Store) (a b : Archive) (file : FileContent)
    (md : ArchiveMetadata) (head : Archive) (now : Int) (f g : String) :
    (a.name = b.name → findExistingArchive store a = findExistingArchive store b)
    ∧ (findExistingArchive store (uploadProbe file md) = some (some head) →
      head.ownerID ≠ md.ownerID →
      ∃ x st, uploadArchive store file md now f g true = some ⟨st, .ok x⟩
        ∧ x.id = head.id ∧ x.version = head.version + 1) := by
  refine ⟨findExisting_name_only store a b, fun h _ => ?_⟩
  have hsee : findExistingArchive store (seededArchive file md (some head))
      = some (some head) := by
    rw [findExisting_name_only store _ (uploadProbe file md)
      (by rw [seededArchive_name]; rfl)]
    exact h
  have hmem := findExisting_id_mem store _ head hsee
  rw [uploadArchive_resolved _ _ _ _ _ _ _ _ h,
      saveWithVersioning_resolved _ _ _ _ _ _ _ _ hsee,
      saveGivenExisting_head _ _ _ _ _ _ _ hmem]
  exact ⟨_, _, rfl, rfl, rfl⟩

/-- C5 amended witness: the name-only resolution and the cross-owner bump
at the concrete store. -/
theorem c5_resolution_name_only_witness :
    ((uploadProbe fileReport mdAlice).name = (uploadProbe fileReport mdBob).name
      ∧ findExistingArchive store1 (uploadProbe fileReport mdAlice)
          = findExistingArchive store1 (uploadProbe fileReport mdBob))
    ∧ (findExistingArchive store1 (uploadProbe fileReport mdBob) = some (some head1)
      ∧ head1.ownerID ≠ mdBob.ownerID
      ∧ ∃ x st, uploadArchive store1 fileReport mdBob 200 oidC oidD true = some ⟨st, .ok x⟩
          ∧ x.id = head1.id ∧ x.version = head1.version + 1) :=
  ⟨⟨rfl, (c5_resolution_name_only store1 (uploadProbe fileReport mdAlice)
      (uploadProbe fileReport mdBob) fileReport mdBob head1 200 oidC oidD).1 rfl⟩,
   ⟨rfl, by decide,
    (c5_resolution_name_only store1 (uploadProbe fileReport mdAlice)
      (uploadProbe fileReport mdBob) fileReport mdBob head1 200 oidC oidD).2 rfl (by decide)⟩⟩

/-- `store2` temp-deleted at 300 and then soft-deleted at 400: the record
carries both `expires_at` and `deleted_at`. -/
def store6 : Store := softDelete store3 oidD 400

def d6 : BDoc := store6.head?.getD []
def meta6 : BDoc := (getMeta d6).getD []
def oldLogs6 : List ChangeLog := (readLogsSkipping (getField meta6 "change_logs")).getD []

/-- The purely temp-deleted stored document of `store3` (no soft delete
ever ran on it, so it carries no top-level `deleted_at`). -/
def d3 : BDoc := store3.head?.getD []

/-- C6 counterexample: restoring the purely temp-deleted record of
`store3` FAILS with NotDeleted — `tempDelete` never sets `deleted_at`, so
the record misses the restore filter; restoring the soft-deleted record of
`store6` succeeds but clears only `deletedAt` — the stored `expires_at`
survives the restore — and restoring a nonexistent id returns NotDeleted,
never NotFound. -/
theorem c6_counterexample :
    restoreArchive store3 oidD 600 = some (store3, .error .notDeleted)
    ∧ (∃ st, restoreArchive store6 oidD 600 = some (st, .ok ())
      ∧ ∃ d, st.head? = some d ∧ getField d "deleted_at" = none
        ∧ getField d "expires_at" = some (.dt 86400300))
    ∧ restoreArchive store6 oidA 600 = some (store6, .error .notDeleted) :=
  ⟨rfl, ⟨_, rfl, _, rfl, rfl, rfl⟩, rfl⟩

/-- C6 amended: `RestoreArchive` succeeds exactly on a record whose
top-level `deleted_at` is set — i.e. a soft-deleted record; a purely
temp-deleted record is NOT restorable, since `tempDelete` sets only
`is_temp`/`expires_at` and never `deleted_at`, so such a record fails the
restore filter and the call returns NotDeleted.  On success the update
clears `deletedAt` but LEAVES `expiresAt` (and `is_temp`) in place,
appends one `restore` entry carrying the status change deleted→active to
the read-back log (which loses the old entries' field changes), and
stamps `metadata.updated_at`; when no document matches — the id is
missing, the record is live, or it is only temp-deleted — it returns
NotDeleted, so NotFound is never produced for a missing id.  The plain
repository `Restore` is the variant that returns NotFound for a missing
id; on a present record it unsets `deleted_at`, `expires_at` and
`is_temp` without appending any history entry. -/
theorem c6_restore_behavior :
    (∀ d id now meta owner oldLogs, validHex id = true → restoreFilter id d = true →
      getField d "metadata" = some (.doc meta) →
      getField meta "owner_id" = some (.str owner) →
      readLogsSkipping (getField meta "change_logs") = some oldLogs →
      ∃ d', restoreArchive [d] id now = some ([d'], .ok ())
        ∧ getField d' "deleted_at" = none
        ∧ getField d' "expires_at" = getField d "expires_at"
        ∧ getField d' "is_temp" = getField d "is_temp"
        ∧ getMetaField d' "change_logs"
            = some (.arr ((oldLogs ++ [restoreEntry owner now]).map changeLogToB))
        ∧ getMetaField d' "updated_at" = some (.dt now)
        ∧ (restoreEntry owner now).action = "restore"
        ∧ (restoreEntry owner now).changes = [⟨"status", .s "deleted", .s "active"⟩])
    ∧ (∀ store id t, (tempDelete store id t).map (fun d => getField d "deleted_at")
        = store.map (fun d => getField d "deleted_at"))
    ∧ (∀ d id, getField d "deleted_at" = none → restoreFilter id d = false)
    ∧ (∀ store id now, validHex id = true → store.find? (restoreFilter id) = none →
      restoreArchive store id now = some (store, .error .notDeleted))
    ∧ (∀ store id, validHex id = true → store.any (idIs id) = false →
      repoRestore store id = (store, .error .notFound)) := by
  refine ⟨?_, ?_, ?_, ?_, ?_⟩
  · intro d id now meta owner oldLogs hval hfil hmeta howner hlogs
    refine ⟨restoreUpdate (oldLogs ++ [restoreEntry owner now]) now d,
      restoreArchive_single d id now meta owner oldLogs hval hfil hmeta howner hlogs, ?_⟩
    obtain ⟨h1, h2, h3, h4, h5⟩ := restoreUpdate_fields (oldLogs ++ [restoreEntry owner now]) now d
    exact ⟨h1, h2, h3, h4, h5, rfl, rfl⟩
  · intro store id t
    unfold tempDelete
    apply updateFirst_map_invariant
    intro d
    rw [getField_setField_ne _ "expires_at" "deleted_at" _ (by decide),
        getField_setField_ne d "is_temp" "deleted_at" _ (by decide)]
  · intro d id h
    unfold restoreFilter
    rw [h]
    exact Bool.and_false _
  · intro store id now hval hfind
    unfold restoreArchive
    rw [if_neg (by simp [hval]), hfind]
  · intro store id hval hany
    unfold repoRestore
    rw [if_neg (by simp [hval]), if_neg (by rw [hany]; exact Bool.false_ne_true)]

/-- C6 amended witness: restore of the concrete soft-deleted record, the
temp-delete non-restorability at the concrete temp-deleted document, plus
the two error shapes, at concrete inputs. -/
theorem c6_restore_behavior_witness :
    (validHex oidD = true ∧ restoreFilter oidD d6 = true
      ∧ getField d6 "metadata" = some (.doc meta6)
      ∧ getField meta6 "owner_id" = some (.str "bob")
      ∧ readLogsSkipping (getField meta6 "change_logs") = some oldLogs6
      ∧ ∃ d', restoreArchive [d6] oidD 600 = some ([d'], .ok ())
          ∧ getField d' "deleted_at" = none
          ∧ getField d' "expires_at" = getField d6 "expires_at"
          ∧ getField d' "is_temp" = getField d6 "is_temp"
          ∧ getMetaField d' "change_logs"
              = some (.arr ((oldLogs6 ++ [restoreEntry "bob" 600]).map changeLogToB))
          ∧ getMetaField d' "updated_at" = some (.dt 600)
          ∧ (restoreEntry "bob" 600).action = "restore"
          ∧ (restoreEntry "bob" 600).changes = [⟨"status", .s "deleted", .s "active"⟩])
    ∧ (tempDelete store2 oidD 300).map (fun d => getField d "deleted_at")
        = store2.map (fun d => getField d "deleted_at")
    ∧ (getField d3 "deleted_at" = none ∧ restoreFilter oidD d3 = false)
    ∧ (validHex oidA = true ∧ store6.find? (restoreFilter oidA) = none
      ∧ restoreArchive store6 oidA 600 = some (store6, .error .notDeleted))
    ∧ (validHex oidE = true ∧ store6.any (idIs oidE) = false
      ∧ repoRestore store6 oidE = (store6, .error .notFound)) :=
  ⟨⟨by decide, rfl, rfl, rfl, rfl,
    c6_restore_behavior.1 d6 oidD 600 meta6 "bob" oldLogs6 (by decide) rfl rfl rfl rfl⟩,
   c6_restore_behavior.2.1 store2 oidD 300,
   ⟨rfl, c6_restore_behavior.2.2.1 d3 oidD rfl⟩,
   ⟨by decide, rfl, c6_restore_behavior.2.2.2.1 store6 oidA 600 (by decide) rfl⟩,
   ⟨by decide, rfl, c6_restore_behavior.2.2.2.2 store6 oidE (by decide) rfl⟩⟩

/-- First of two interleaved first uploads of `report.pdf`: its head
resolution (against the empty store) happened before either commit. -/
def rIntl1 : SaveOutcome :=
  saveGivenExisting [] none (uploadBase fileReport mdAlice) [1] 10 oidA oidB true

/-- The second interleaved upload: its resolution also saw the empty store
(it ran before the first commit), but its commit applies after it. -/
def rIntl2 : SaveOutcome :=
  saveGivenExisting rIntl1.store none (uploadBase fileReport mdBob) [1] 11 oidC oidD true

/-- C7 counterexample: two concurrently issued uploads under one filename
that both resolved no head (both resolutions ran against the empty store)
both commit successfully with version 1 — the resulting versions are
{1, 1}, not {1, 2}, with a duplicate and no conflict error for either
writer. -/
theorem c7_counterexample :
    findExistingArchive [] (uploadProbe fileReport mdAlice) = some none
    ∧ findExistingArchive [] (uploadProbe fileReport mdBob) = some none
    ∧ (∃ a₁, rIntl1.result = .ok a₁ ∧ a₁.version = 1)
    ∧ (∃ a₂, rIntl2.result = .ok a₂ ∧ a₂.version = 1)
    ∧ rIntl2.store.length = 2
    ∧ ¬ ([(1 : Int), 1].Nodup) :=
  ⟨rfl, rfl, ⟨_, rfl, rfl⟩, ⟨_, rfl, rfl⟩, rfl, by decide⟩

/-- C7 amended: sequentially, `n` uploads under one filename hand back
exactly the versions `[1, 2, …, n]` — strictly increasing, no gaps, no
duplicates; but there is no conditional write: resolution always returns
no head on an empty store, and two uploads whose resolutions both ran
before either commit both succeed with version 1 (duplicate versions, no
conflict error). -/
theorem c7_version_sequence (file : FileContent) (md : ArchiveMetadata)
    (fF gF : Nat → String) (n : Nat) (a1 a2 : Archive) (c1 c2 : List Nat)
    (t1 t2 : Int) (f1 g1 f2 g2 : String) :
    (∃ st, runUploads file md fF gF n = some (st, versionsUpTo n))
    ∧ (∀ probe : Archive, findExistingArchive [] probe = some none)
    ∧ (∃ b1 b2,
        (saveGivenExisting [] none a1 c1 t1 f1 g1 true).result = .ok b1
        ∧ (saveGivenExisting (saveGivenExisting [] none a1 c1 t1 f1 g1 true).store
            none a2 c2 t2 f2 g2 true).result = .ok b2
        ∧ b1.version = 1 ∧ b2.version = 1) := by
  refine ⟨?_, fun probe => rfl, ⟨_, _, rfl, rfl, rfl, rfl⟩⟩
  rcases runUploads_inv file md fF gF n with ⟨h0, hn0⟩ | ⟨d, hrun, _⟩
  · subst hn0
    exact ⟨[], h0⟩
  · exact ⟨[d], hrun⟩

/-- C8 counterexample: `"zzz"` is not a valid ObjectID hex string so it
resolves to nothing, while `oidD` resolves to a record — yet requesting
both returns an immediate invalid-id error instead of skipping the
unresolvable id silently. -/
theorem c8_counterexample :
    validHex "zzz" = false
    ∧ (∃ a, findByIDs store2 [oidD] = some (.ok [a]))
    ∧ findByIDs store2 [oidD, "zzz"] = some (.error .invalidObjectID) :=
  ⟨by decide, ⟨_, rfl⟩, rfl⟩

/-- C8 amended: when every requested id is well-formed ObjectID hex and
the stored documents decode, `FindByIDs` returns the found items in the
requested order, silently skipping ids that resolve to nothing, and
returns an error exactly when no requested id resolves; a syntactically
invalid id, however, aborts the whole call regardless of the other
ids. -/
theorem c8_get_by_ids (store : Store) (ids : List String)
    (hval : ids.all validHex = true)
    (hwf : ∀ d ∈ store, (mapToArchive d).isSome = true) :
    (ids.any (resolves store) = false →
      findByIDs store ids = some (.error .notFound))
    ∧ (ids.any (resolves store) = true →
      ∃ l, findByIDs store ids = some (.ok l)
        ∧ l.map (fun a => a.id) = ids.filter (resolves store)) :=
  findByIDs_spec store ids hval hwf

/-- C8 witness: on the post-bump store, requesting the well-formed but
absent `oidA` together with the present `oidD` succeeds, returning just
the record for `oidD` (the absent id is skipped in order). -/
theorem c8_get_by_ids_witness :
    [oidA, oidD].all validHex = true
    ∧ (∀ d ∈ store2, (mapToArchive d).isSome = true)
    ∧ ([oidA, oidD].any (resolves store2) = true →
        ∃ l, findByIDs store2 [oidA, oidD] = some (.ok l)
          ∧ l.map (fun a => a.id) = [oidA, oidD].filter (resolves store2)) :=
  ⟨by decide, by decide,
   (c8_get_by_ids store2 [oidA, oidD] (by decide) (by decide)).2⟩

/-- A file stored by the metadata-poor legacy `Save` path. -/
def oldFile : FileContent := { name := "old.bin", content := [7], size := 1 }

/-- A store holding only a legacy document (metadata has just `created_at`
and `is_temp`). -/
def legacyStore : Store := save [] oldFile 50 oidA

/-- C9 counterexample: a legacy document makes `mapToArchive` panic, and
`FindAll` and `FindByIDs` do panic on it — but `GetByCategory` and
`GetByTags` do not: their filters require `metadata.category` /
`metadata.tags`, which the legacy document lacks, so it never reaches
`mapToArchive` and both return an empty page successfully. -/
theorem c9_counterexample :
    mapToArchive (mkLegacyDoc oldFile 50 oidA) = none
    ∧ findAll legacyStore 1 1 60 = none
    ∧ findByIDs legacyStore [oidA] = none
    ∧ getByCategory legacyStore "finance" 1 1 = some ([], 0)
    ∧ getByTags legacyStore ["q4"] 1 1 = some ([], 0) :=
  ⟨rfl, rfl, rfl, rfl, rfl⟩

/-- C9 amended: for every legacy-saved document, `mapToArchive`'s
unchecked metadata assertions fail, so `FindAll` (with any nonzero page
size) and `FindByIDs` (on the document's well-formed id) panic instead of
returning a result or error; `GetByCategory` and `GetByTags`, by
contrast, filter on metadata keys the legacy document lacks, never decode
it, and return an empty success for every category, tag list and page. -/
theorem c9_legacy_reads (file : FileContent) (now now' : Int) (o : String)
    (limit : Nat) (hl : limit ≠ 0) (hval : validHex o = true)
    (c : String) (tags : List String) (page plim : Nat) :
    mapToArchive (mkLegacyDoc file now o) = none
    ∧ findAll (save [] file now o) 1 limit now' = none
    ∧ findByIDs (save [] file now o) [o] = none
    ∧ getByCategory (save [] file now o) c page plim = some ([], 0)
    ∧ getByTags (save [] file now o) tags page plim = some ([], 0) :=
  ⟨mapToArchive_legacy file now o,
   findAll_legacy_panics file now now' o limit hl,
   findByIDs_legacy_panics file now o hval,
   getByCategory_legacy file now o c page plim,
   getByTags_legacy file now o tags page plim⟩

/-- C9 witness: the amended theorem at the concrete legacy fixture. -/
theorem c9_legacy_reads_witness :
    (1 : Nat) ≠ 0 ∧ validHex oidA = true
    ∧ (mapToArchive (mkLegacyDoc oldFile 50 oidA) = none
      ∧ findAll (save [] oldFile 50 oidA) 1 1 60 = none
      ∧ findByIDs (save [] oldFile 50 oidA) [oidA] = none
      ∧ getByCategory (save [] oldFile 50 oidA) "finance" 1 2 = some ([], 0)
      ∧ getByTags (save [] oldFile 50 oidA) ["q4"] 1 2 = some ([], 0)) :=
  ⟨by decide, by decide,
   c9_legacy_reads oldFile 50 60 oidA 1 (by decide) (by decide) "finance" ["q4"] 1 2⟩

/-- C10: soft-deleting any record that is present — including one already
soft-deleted, since `d` is unconstrained and `Exists` counts by `_id`
alone — succeeds (never AlreadyDeleted, never NotFound) and sets the
stored `deleted_at` to the current call instant unconditionally, so a
repeated soft delete overwrites and advances the timestamp rather than
being a no-op. -/
theorem c10_soft_delete_overwrites (store : Store) (id : String) (now : Int) (d : BDoc)
    (hval : validHex id = true)
    (hfind : store.find? (idIs id) = some d) :
    archiveExists store id = .ok true
    ∧ deleteArchive store id .soft now = (softDelete store id now, .ok ())
    ∧ (softDelete store id now).find? (idIs id)
        = some (setField d "deleted_at" (.dt now))
    ∧ getField (setField d "deleted_at" (.dt now)) "deleted_at" = some (.dt now) := by
  have hany : store.any (idIs id) = true :=
    List.any_eq_true.mpr ⟨d, List.mem_of_find?_eq_some hfind, List.find?_some hfind⟩
  have hex : archiveExists store id = .ok true := by
    unfold archiveExists
    rw [if_neg (by simp [hval]), hany]
  refine ⟨hex, ?_, ?_, getField_setField d "deleted_at" (.dt now)⟩
  · unfold deleteArchive
    rw [hex]
    unfold repoDelete
    rw [if_neg (by simp [hval])]
  · refine updateFirst_find? (idIs id) _ store d hfind ?_
    have hid := List.find?_some hfind
    unfold idIs
    rw [getField_setField_ne d "deleted_at" "_id" (.dt now) (by decide)]
    unfold idIs at hid
    exact hid

/-- The stored document of `store1sd` (already soft-deleted at 300). -/
def dSd : BDoc := (store1sd.find? (idIs oidB)).getD []

/-- C10 witness: re-soft-deleting the record soft-deleted at instant 300
at instant 500 succeeds and moves its `deleted_at` from 300 to 500. -/
theorem c10_soft_delete_overwrites_witness :
    validHex oidB = true
    ∧ store1sd.find? (idIs oidB) = some dSd
    ∧ getField dSd "deleted_at" = some (.dt 300)
    ∧ (archiveExists store1sd oidB = .ok true
      ∧ deleteArchive store1sd oidB .soft 500 = (softDelete store1sd oidB 500, .ok ())
      ∧ (softDelete store1sd oidB 500).find? (idIs oidB)
          = some (setField dSd "deleted_at" (.dt 500))
      ∧ getField (setField dSd "deleted_at" (.dt 500)) "deleted_at" = some (.dt 500)) :=
  ⟨by decide, rfl, rfl,
   c10_soft_delete_overwrites store1sd oidB 500 dSd (by decide) rfl⟩

end Archiven
